import Mathlib

/-!
Verification development for the bitlogik/lattice-attack repository.

The Python sources `lattice_attack.py` and `ecdsa_lib.py` are shallowly
embedded below.  Arbitrary-precision Python integers become `ℕ`/`ℤ`;
Python `%` on a positive modulus becomes `Nat.mod` / `Int.emod` (both agree
with Python's semantics for a positive modulus); functions that can raise
an exception return `Option`.  External capabilities (the fpylll reduction
oracle, elliptic-curve scalar multiplication from the `cryptography`
package, SHA-256, and the subsampling RNG) are taken as explicit function
parameters, exactly at the call boundaries where the source invokes them.
-/

/-! ## Curve oracle (`ecdsa_lib.py`) -/

/-- The closed set of supported curve names (keys of `CURVES_ORDER`). -/
inductive Curve
  | SECP224R1
  | SECP256K1
  | SECP256R1
  | SECP384R1
  | SECP521R1
deriving DecidableEq

/-- The function `ecdsa_lib.curve_n`: the curve order `n` from the fixed `CURVES_ORDER`
table (values copied digit for digit from the source; the SECP256K1 entry
is written in hexadecimal there). -/
def curve_n : Curve → ℕ
  | .SECP224R1 => 26959946667150639794667015087019625940457807714424391721682722368061
  | .SECP256K1 => 0xFFFFFFFFFFFFFFFFFFFFFFFFFFFFFFFEBAAEDCE6AF48A03BBFD25E8CD0364141
  | .SECP256R1 => 115792089210356248762697446949407573529996955224135760342422259061068512044369
  | .SECP384R1 => 39402006196394479212279040100143613805079739270465446667946905279627659399113263569398956308152294913554433653942643
  | .SECP521R1 => 6864797660130609714981900799081393217269435300143305409394463459185543183397655394245057746333217197532963996371363321113864768612440380340372808892707005449

/-- The function `ecdsa_lib.curve_size`: the curve bit size.  The source reads
`key_size` of the `cryptography` package's curve object for the named
curve; these are the well-known fixed key sizes of the five curves. -/
def curve_size : Curve → ℕ
  | .SECP224R1 => 224
  | .SECP256K1 => 256
  | .SECP256R1 => 256
  | .SECP384R1 => 384
  | .SECP521R1 => 521

/-! ## Modular inverse (`ecdsa_lib.inverse_mod`) -/

/-- The `while i != 1` loop of `ecdsa_lib.inverse_mod`, embedded with an
explicit fuel argument so that the recursion is structural.  One Python
iteration does `quot, rem = divmod(j, i)`, `x_rem = x_b - quot * x_a` and
then rotates `j, i, x_b, x_a = i, rem, x_a, x_rem`.  Python's
`divmod(j, 0)` raises `ZeroDivisionError`, which becomes `none`.  The
argument `i` strictly decreases across an iteration (`j % i < i`), so
calling with `fuel = i` never exhausts the fuel before `i` reaches `1` or
`0`: when `fuel = 0` the invariant `i ≤ fuel` forces `i = 0`, the very
case in which Python raises, so the `none` returned for exhausted fuel
coincides with the source's behaviour. -/
def egcdLoop : ℕ → ℕ → ℕ → ℤ → ℤ → Option ℤ
  | _, 1, _, x_a, _ => some x_a
  | 0, _, _, _, _ => none
  | fuel + 1, i, j, x_a, x_b =>
    if i = 0 then none
    else egcdLoop fuel (j % i) i (x_b - ((j / i : ℕ) : ℤ) * x_a) x_a

/-- The function `ecdsa_lib.inverse_mod`: extended Euclid.  The source first reduces
`a_num` into `[0, m_mod)` (`a_num %= m_mod` under the guard
`a_num < 0 or m_mod <= a_num`, which for natural `a_num` is exactly
`a_num % m_mod`), runs the loop from `i, j, x_a, x_b = a, m, 1, 0`, and
returns `x_a % m_mod`.  For `m_mod = 0` Python's `a_num %= 0` raises
`ZeroDivisionError`, hence `none`. -/
def inverse_mod (a_num m_mod : ℕ) : Option ℕ :=
  if m_mod = 0 then none
  else
    (egcdLoop (a_num % m_mod) (a_num % m_mod) m_mod 1 0).map
      (fun x_a => (x_a % (m_mod : ℤ)).toNat)

/-! ## Signature samples and the lattice builder (`lattice_attack.py`) -/

/-- One signature dictionary from the JSON data:
`{"hash": h, "r": r, "s": s, "kp": kp}`. -/
structure Sig where
  r : ℕ
  s : ℕ
  kp : ℕ
  hash : ℕ
deriving DecidableEq

/-- Either `"LSB"` or `"MSB"` (the `known_type` field). -/
inductive BitsType
  | LSB
  | MSB
deriving DecidableEq

/-- The hash used for one signature inside `build_matrix`: the loop sets
`hash_i = sigs[i]["hash"]` only `if hash_val is None`, otherwise the
global `hash_i = hash_val` fixed before the loop is used. -/
def hash_for (hash_val : Option ℕ) (sg : Sig) : ℕ :=
  hash_val.getD sg.hash

/-- Option-propagation over a list: runs `f` on every element in order and
fails as soon as one call fails, mirroring a Python loop in which any
iteration may raise. -/
def optList {α β : Type} (f : α → Option β) : List α → Option (List β)
  | [] => some []
  | a :: rest => (f a).bind fun b => (optList f rest).map fun bs => b :: bs

/-- LSB branch, entry `lattice[num_sigs, i]`:
`2 * kbi * (inv(kbi, n) * (r * inv(s, n)) % n)`. -/
def lsb_col_m (kbi n_order : ℕ) (sg : Sig) : Option ℤ :=
  (inverse_mod kbi n_order).bind fun (ki : ℕ) =>
  (inverse_mod sg.s n_order).map fun (si : ℕ) =>
    2 * (kbi : ℤ) * (((ki : ℤ) * ((sg.r : ℤ) * (si : ℤ))) % (n_order : ℤ))

/-- LSB branch, entry `lattice[num_sigs + 1, i]`:
`2 * kbi * (inv(kbi, n) * (kp - hash_i * inv(s, n)) % n) + n`. -/
def lsb_col_m1 (kbi n_order : ℕ) (hash_val : Option ℕ) (sg : Sig) : Option ℤ :=
  (inverse_mod kbi n_order).bind fun (ki : ℕ) =>
  (inverse_mod sg.s n_order).map fun (si : ℕ) =>
    2 * (kbi : ℤ) *
        (((ki : ℤ) * ((sg.kp : ℤ) - (hash_for hash_val sg : ℤ) * (si : ℤ))) % (n_order : ℤ)) +
      (n_order : ℤ)

/-- MSB branch, entry `lattice[num_sigs, i]`:
`2 * kbi * ((r * inv(s, n)) % n)`. -/
def msb_col_m (kbi n_order : ℕ) (sg : Sig) : Option ℤ :=
  (inverse_mod sg.s n_order).map fun (si : ℕ) =>
    2 * (kbi : ℤ) * (((sg.r : ℤ) * (si : ℤ)) % (n_order : ℤ))

/-- MSB branch, entry `lattice[num_sigs + 1, i]`:
`2 * kbi * (kp * (curve_card // kbi) - hash_i * inv(s, n)) + n`
(note: no reduction mod `n` in this branch). -/
def msb_col_m1 (kbi n_order curve_card : ℕ) (hash_val : Option ℕ) (sg : Sig) : Option ℤ :=
  (inverse_mod sg.s n_order).map fun (si : ℕ) =>
    2 * (kbi : ℤ) *
        ((sg.kp : ℤ) * ((curve_card / kbi : ℕ) : ℤ) - (hash_for hash_val sg : ℤ) * (si : ℤ)) +
      (n_order : ℤ)

/-- The function `lattice_attack.build_matrix`.  The fpylll `IntegerMatrix` of shape
`(num_sigs + 2) × (num_sigs + 2)` is zero-initialized and then written at
`lattice[i, i]`, `lattice[num_sigs, i]`, `lattice[num_sigs + 1, i]` for
`i < num_sigs`, plus `lattice[num_sigs, num_sigs] = 1` and
`lattice[num_sigs + 1, num_sigs + 1] = n_order`; it is embedded as the
total function `ℕ → ℕ → ℤ` that is the written value at those positions
and `0` elsewhere.  Any `inverse_mod` failure inside the loop raises in
Python, hence `none` here.  `curve_card = 2 ** curve_size(curve)` and
`kbi = 2 ** num_bits`, as in the source. -/
def build_matrix (sigs : List Sig) (curve : Curve) (num_bits : ℕ)
    (bits_type : BitsType) (hash_val : Option ℕ) : Option (ℕ → ℕ → ℤ) :=
  let num_sigs := sigs.length
  let n_order := curve_n curve
  let curve_card := 2 ^ curve_size curve
  let kbi := 2 ^ num_bits
  let cols : Option (List ℤ × List ℤ) :=
    match bits_type with
    | .LSB =>
        (optList (lsb_col_m kbi n_order) sigs).bind fun row_m =>
        (optList (lsb_col_m1 kbi n_order hash_val) sigs).map fun row_m1 => (row_m, row_m1)
    | .MSB =>
        (optList (msb_col_m kbi n_order) sigs).bind fun row_m =>
        (optList (msb_col_m1 kbi n_order curve_card hash_val) sigs).map fun row_m1 =>
          (row_m, row_m1)
  cols.map fun rows => fun i j =>
    if i < num_sigs ∧ j = i then 2 * (kbi : ℤ) * (n_order : ℤ)
    else if i = num_sigs ∧ j < num_sigs then rows.1.getD j 0
    else if i = num_sigs + 1 ∧ j < num_sigs then rows.2.getD j 0
    else if i = num_sigs ∧ j = num_sigs then 1
    else if i = num_sigs + 1 ∧ j = num_sigs + 1 then (n_order : ℤ)
    else 0

/-! ## Candidate extractor (`lattice_attack.test_result`) -/

/-- Python's `row[-2]`: the second-to-last entry of a row.  Meaningful for
rows of length at least 2 (shorter rows raise `IndexError` in Python; the
theorems about `test_result` hypothesize `2 ≤ row.length`). -/
def rowNeg2 (row : List ℤ) : ℤ :=
  row.getD (row.length - 2) 0

/-- The function `lattice_attack.test_result`, scanning rows in order.  The public-key
derivation `ecdsa_lib.privkey_to_pubkey` (scalar multiplication through
the `cryptography` package) is the external parameter `derive`; a public
key is its coordinate pair `[x, y]`. -/
def test_result (derive : ℕ → Curve → ℤ × ℤ) (mat : List (List ℤ))
    (target_pubkey : ℤ × ℤ) (curve : Curve) : ℕ :=
  match mat with
  | [] => 0
  | row :: rest =>
    let mod_n := curve_n curve
    let candidate := rowNeg2 row % (mod_n : ℤ)
    if 0 < candidate then
      let cand1 := candidate.toNat
      let cand2 := mod_n - cand1
      if target_pubkey = derive cand1 curve then cand1
      else if target_pubkey = derive cand2 curve then cand2
      else test_result derive rest target_pubkey curve
    else test_result derive rest target_pubkey curve

/-- Specification of one row of the extractor scan, read off the body of
`test_result`: the candidate is the second-to-last entry reduced mod `n`;
`0` is skipped; a nonzero candidate `c` is accepted if `derive c` matches
the target, then `n − c` is tried. -/
def rowCandidate (derive : ℕ → Curve → ℤ × ℤ) (target : ℤ × ℤ) (curve : Curve)
    (row : List ℤ) : Option ℕ :=
  let mod_n := curve_n curve
  let candidate := rowNeg2 row % (mod_n : ℤ)
  if 0 < candidate then
    if target = derive candidate.toNat curve then some candidate.toNat
    else if target = derive (mod_n - candidate.toNat) curve then some (mod_n - candidate.toNat)
    else none
  else none

/-! ## Recovery driver (`lattice_attack.recover_private_key`) -/

/-- The constant `MINIMUM_BITS = 4`. -/
def MINIMUM_BITS : ℕ := 4

/-- The constant `RECOVERY_SEQUENCE = [None, 15, 25, 40, 50, 60]`: `none` selects plain
LLL inside `reduce_lattice`, `some b` selects BKZ with block size `b`. -/
def RECOVERY_SEQUENCE : List (Option ℕ) := [none, some 15, some 25, some 40, some 50, some 60]

/-- The function `lattice_attack.minimum_sigs_required`: the source computes
`int(SIGNATURES_NUMBER_MARGIN * 4 / 3 * curve_size / num_bits)` with
`SIGNATURES_NUMBER_MARGIN = 1.03`, i.e. the truncation of
`(103/100) * (4/3) * curve_size / num_bits = 412 * curve_size /
(300 * num_bits)`.  The float product is modelled by exact rational
arithmetic (`ℕ` division is truncation): for the five supported curve
sizes the exact value is never an integer and sits at distance at least
`1 / (300 * 521)` from every integer, far beyond the roundoff of the
four double-precision operations, so the truncated float and the
truncated rational coincide on the whole input range. -/
def minimum_sigs_required (num_bits : ℕ) (curve : Curve) : ℕ :=
  412 * curve_size curve / (300 * num_bits)

/-- A Python return value of `recover_private_key`: the function returns
the bool `False` on precondition failures and an int otherwise. -/
inductive PyVal
  | vbool (b : Bool)
  | vint (n : ℕ)
deriving DecidableEq

/-- Python truthiness of a `PyVal` (`False` and `0` are both falsy), as
used by `if res:` and by the caller `if result:`. -/
def truthy : PyVal → Bool
  | .vbool b => b
  | .vint n => n ≠ 0

/-- Observable events of one driver run, used to state in which order the
driver prints its failure messages, draws subsamples, builds matrices and
invokes the reduction oracle. -/
inductive DEvent
  | printInsufficientLeakage
  | printNotEnoughSignatures
  | sample
  | buildMatrix
  | reduceStep (effort : Option ℕ)
  | testStep (res : ℕ)
deriving DecidableEq

/-- The event trace of a schedule prefix all of whose extractor results
are zero. -/
def zeroTrace : List (Option ℕ) → List DEvent
  | [] => []
  | e :: rest => DEvent.reduceStep e :: DEvent.testStep 0 :: zeroTrace rest

/-- The block-size arguments of the `reduceStep` events of a trace, in
order. -/
def reduceEfforts (evs : List DEvent) : List (Option ℕ) :=
  evs.filterMap fun e =>
    match e with
    | .reduceStep eff => some eff
    | _ => none

/-- Number of extractor invocations (`testStep` events) in a trace. -/
def countTests (evs : List DEvent) : ℕ :=
  (evs.filter fun e =>
    match e with
    | .testStep _ => true
    | _ => false).length

/-- Number of subsample draws (`sample` events) in a trace. -/
def countSamples (evs : List DEvent) : ℕ :=
  (evs.filter fun e =>
    match e with
    | .sample => true
    | _ => false).length

/-- Number of `build_matrix` invocations (`buildMatrix` events) in a
trace. -/
def countBuilds (evs : List DEvent) : ℕ :=
  (evs.filter fun e =>
    match e with
    | .buildMatrix => true
    | _ => false).length

/-- The inner `for effort in RECOVERY_SEQUENCE` loop of
`recover_private_key`: `lattice = reduce_lattice(lattice, effort)`,
`res = test_result(lattice, pub_key, curve)`, `if res: return res`.
`reduce` is the external fpylll oracle (`reduce_lattice`), `test` is
`test_result` applied to the fixed public key and curve.  Returns the
first truthy extractor result (or `none`) together with the event
trace. -/
def scheduleRun {Λ : Type} (reduce : Λ → Option ℕ → Λ) (test : Λ → ℕ) :
    Λ → List (Option ℕ) → Option ℕ × List DEvent
  | _, [] => (none, [])
  | lat, effort :: rest =>
    let lat2 := reduce lat effort
    let res := test lat2
    if res ≠ 0 then (some res, [.reduceStep effort, .testStep res])
    else
      let out := scheduleRun reduce test lat2 rest
      (out.1, .reduceStep effort :: .testStep res :: out.2)

/-- The lattice state after applying the reduction oracle with the given
efforts in order, starting from `lat`. -/
def latAfter {Λ : Type} (reduce : Λ → Option ℕ → Λ) (lat : Λ) (effs : List (Option ℕ)) : Λ :=
  effs.foldl reduce lat

/-- The extractor result observed right after the `(k+1)`-st reduction
step of the schedule, starting from `lat`. -/
def resAt {Λ : Type} (reduce : Λ → Option ℕ → Λ) (test : Λ → ℕ) (lat : Λ) (k : ℕ) : ℕ :=
  test (latAfter reduce lat (RECOVERY_SEQUENCE.take (k + 1)))

/-- The `while loop_var` loop of `recover_private_key`, one constructor
step per iteration: draw `sigs_data = random.sample(...)` (the external
RNG is the oracle `samples`, indexed by the iteration number), build the
lattice (`build`, the driver's closure of `build_matrix` over curve,
bits, type and hash), run the reduction schedule, return the first truthy
result, and otherwise iterate again only when `loop` is set.  `fuel`
bounds the number of iterations of the source's unbounded `while`;
`none` means the bound was hit without returning, which never happens for
`loop = false` and positive fuel. -/
def recover_attempts {Λ : Type} (reduce : Λ → Option ℕ → Λ) (test : Λ → ℕ)
    (build : List Sig → Λ) (samples : ℕ → List Sig) (loop : Bool) :
    ℕ → ℕ → Option (PyVal × List DEvent)
  | 0, _ => none
  | fuel + 1, t =>
    let lat := build (samples t)
    let out := scheduleRun reduce test lat RECOVERY_SEQUENCE
    let evs := DEvent.sample :: DEvent.buildMatrix :: out.2
    match out.1 with
    | some r => some (.vint r, evs)
    | none =>
      if loop then
        (recover_attempts reduce test build samples loop fuel (t + 1)).map
          (fun p => (p.1, evs ++ p.2))
      else some (.vint 0, evs)

/-- The function `lattice_attack.recover_private_key`.  The two precondition guards
are checked in source order (`num_bits < MINIMUM_BITS` prints the
insufficient-leakage message and returns `False`;
`n_sigs > len(signatures_data)` prints the not-enough-signatures message
and returns `False`) before any sampling, matrix construction or
reduction; then the shuffle loop runs.  The signature parameters
`h_int`, `pub_key` and `bits_type` of the source are absorbed into the
oracles: `build` closes over `(curve, num_bits, bits_type, h_int)` and
`test` over `(pub_key, curve)`. -/
def recover_private_key {Λ : Type} (reduce : Λ → Option ℕ → Λ) (test : Λ → ℕ)
    (build : List Sig → Λ) (samples : ℕ → List Sig) (signatures_data : List Sig)
    (curve : Curve) (num_bits : ℕ) (loop : Bool) (fuel : ℕ) :
    Option (PyVal × List DEvent) :=
  if num_bits < MINIMUM_BITS then some (.vbool false, [.printInsufficientLeakage])
  else if signatures_data.length < minimum_sigs_required num_bits curve then
    some (.vbool false, [.printNotEnoughSignatures])
  else recover_attempts reduce test build samples loop fuel 0

/-! ## Input adapter hash selection (`lattice_attack.lattice_attack_cli`) -/

/-- The hash selection of `lattice_attack_cli`:
`message = data.get("message")`, then `if message:` (Python truthiness of
the list: present AND non-empty) sets `hash_int = sha2_int(bytes(message))`,
else `hash_int = None`.  SHA-256 (`ecdsa_lib.sha2_int` over hashlib) is
the external parameter `sha2_int`, taking the byte values of the
message. -/
def message_hash_int (sha2_int : List ℕ → ℕ) (message : Option (List ℕ)) : Option ℕ :=
  match message with
  | none => none
  | some msg => if msg = [] then none else some (sha2_int msg)

/-! ## Helper lemmas: the extended Euclidean loop -/

lemma egcdLoop_one (fuel j : ℕ) (x_a x_b : ℤ) : egcdLoop fuel 1 j x_a x_b = some x_a := by
  cases fuel <;> rfl

lemma egcdLoop_fuel_zero (i j : ℕ) (x_a x_b : ℤ) (h : i ≠ 1) :
    egcdLoop 0 i j x_a x_b = none := by
  match i, h with
  | 0, _ => rfl
  | n + 2, _ => rfl

lemma egcdLoop_succ (fuel i j : ℕ) (x_a x_b : ℤ) (h1 : i ≠ 1) (h0 : i ≠ 0) :
    egcdLoop (fuel + 1) i j x_a x_b =
      egcdLoop fuel (j % i) i (x_b - ((j / i : ℕ) : ℤ) * x_a) x_a := by
  match i, h1, h0 with
  | n + 2, _, _ => simp [egcdLoop]

/-- Loop invariant of `egcdLoop`: if `i ≡ x_a * a` and `j ≡ x_b * a`
modulo `m` on entry, then a successful exit value `x` satisfies
`1 ≡ x * a` modulo `m`. -/
lemma egcdLoop_invariant (m a : ℤ) :
    ∀ (fuel i j : ℕ) (x_a x_b x : ℤ),
      egcdLoop fuel i j x_a x_b = some x →
      (i : ℤ) ≡ x_a * a [ZMOD m] → (j : ℤ) ≡ x_b * a [ZMOD m] →
      (1 : ℤ) ≡ x * a [ZMOD m] := by
  intro fuel
  induction fuel with
  | zero =>
    intro i j x_a x_b x hx hi hj
    by_cases h1 : i = 1
    · subst h1
      rw [egcdLoop_one] at hx
      obtain rfl : x_a = x := by injection hx
      simpa using hi
    · rw [egcdLoop_fuel_zero _ _ _ _ h1] at hx
      exact absurd hx (by simp)
  | succ fuel ih =>
    intro i j x_a x_b x hx hi hj
    by_cases h1 : i = 1
    · subst h1
      rw [egcdLoop_one] at hx
      obtain rfl : x_a = x := by injection hx
      simpa using hi
    by_cases h0 : i = 0
    · subst h0
      simp [egcdLoop] at hx
    rw [egcdLoop_succ _ _ _ _ _ h1 h0] at hx
    refine ih (j % i) i (x_b - ((j / i : ℕ) : ℤ) * x_a) x_a x hx ?_ hi
    have hdm : (i : ℤ) * ((j / i : ℕ) : ℤ) + ((j % i : ℕ) : ℤ) = (j : ℤ) := by
      exact_mod_cast congrArg (Nat.cast : ℕ → ℤ) (Nat.div_add_mod j i)
    have hstep : (j : ℤ) - ((j / i : ℕ) : ℤ) * (i : ℤ) ≡
        x_b * a - ((j / i : ℕ) : ℤ) * (x_a * a) [ZMOD m] :=
      hj.sub (hi.mul_left _)
    calc ((j % i : ℕ) : ℤ) = (j : ℤ) - ((j / i : ℕ) : ℤ) * (i : ℤ) := by linarith
      _ ≡ x_b * a - ((j / i : ℕ) : ℤ) * (x_a * a) [ZMOD m] := hstep
      _ = (x_b - ((j / i : ℕ) : ℤ) * x_a) * a := by ring

/-- Totality of `egcdLoop`: with coprime arguments, `1 ≤ i` and fuel at
least `i`, the loop reaches `i = 1` and returns a value. -/
lemma egcdLoop_total :
    ∀ (fuel i j : ℕ) (x_a x_b : ℤ), i ≤ fuel → 1 ≤ i → Nat.gcd i j = 1 →
      ∃ x, egcdLoop fuel i j x_a x_b = some x := by
  intro fuel
  induction fuel with
  | zero => intro i j x_a x_b hif hi _; omega
  | succ fuel ih =>
    intro i j x_a x_b hif hi hgcd
    by_cases h1 : i = 1
    · subst h1; exact ⟨x_a, egcdLoop_one _ _ _ _⟩
    have h0 : i ≠ 0 := by omega
    rw [egcdLoop_succ _ _ _ _ _ h1 h0]
    have hrec : Nat.gcd (j % i) i = 1 := by
      rw [← Nat.gcd_rec]; exact hgcd
    have hlt : j % i < i := Nat.mod_lt _ (by omega)
    have hne : j % i ≠ 0 := by
      intro hz
      rw [hz, Nat.gcd_zero_left] at hrec
      omega
    exact ih (j % i) i (x_b - ((j / i : ℕ) : ℤ) * x_a) x_a (by omega) (by omega) hrec

/-- A successful `inverse_mod a m` lies in `[0, m)` and is a modular
inverse of `a`. -/
lemma inverse_mod_correct {a m x : ℕ} (hx : inverse_mod a m = some x) :
    x < m ∧ (a * x) % m = 1 % m := by
  unfold inverse_mod at hx
  by_cases hm : m = 0
  · simp [hm] at hx
  rw [if_neg hm, Option.map_eq_some'] at hx
  obtain ⟨y, hy, rfl⟩ := hx
  have hmpos : (0 : ℤ) < (m : ℤ) := by exact_mod_cast Nat.pos_of_ne_zero hm
  have hlt : (y % (m : ℤ)).toNat < m := by
    have h1 : y % (m : ℤ) < (m : ℤ) := Int.emod_lt_of_pos y hmpos
    have h2 : 0 ≤ y % (m : ℤ) := Int.emod_nonneg y (by omega)
    omega
  refine ⟨hlt, ?_⟩
  have hinv : (1 : ℤ) ≡ y * (a : ℤ) [ZMOD (m : ℤ)] := by
    refine egcdLoop_invariant (m : ℤ) (a : ℤ) (a % m) (a % m) m 1 0 y hy ?_ ?_
    · calc ((a % m : ℕ) : ℤ) = (a : ℤ) % (m : ℤ) := Int.natCast_mod a m
        _ ≡ (a : ℤ) [ZMOD (m : ℤ)] := Int.mod_modEq _ _
        _ = 1 * (a : ℤ) := by ring
    · calc ((m : ℕ) : ℤ) ≡ 0 [ZMOD (m : ℤ)] := Int.modEq_zero_iff_dvd.mpr dvd_rfl
        _ = 0 * (a : ℤ) := by ring
  have hya : ((y % (m : ℤ)).toNat : ℤ) = y % (m : ℤ) := by
    refine Int.toNat_of_nonneg (Int.emod_nonneg y (by omega))
  have hmodeq : ((a : ℤ) * ((y % (m : ℤ)).toNat : ℤ)) % (m : ℤ) = 1 % (m : ℤ) := by
    have : (a : ℤ) * ((y % (m : ℤ)).toNat : ℤ) ≡ 1 [ZMOD (m : ℤ)] := by
      calc (a : ℤ) * ((y % (m : ℤ)).toNat : ℤ) = (a : ℤ) * (y % (m : ℤ)) := by rw [hya]
        _ ≡ (a : ℤ) * y [ZMOD (m : ℤ)] := (Int.mod_modEq _ _).mul_left _
        _ = y * (a : ℤ) := by ring
        _ ≡ 1 [ZMOD (m : ℤ)] := hinv.symm
    exact this
  have : (((a * (y % (m : ℤ)).toNat) % m : ℕ) : ℤ) = ((1 % m : ℕ) : ℤ) := by
    push_cast
    exact hmodeq
  exact_mod_cast this

/-- Totality of `inverse_mod` on inputs whose reduction is nonzero and
coprime to the modulus. -/
lemma inverse_mod_total {a m : ℕ} (hm : m ≠ 0) (h1 : 1 ≤ a % m)
    (hco : Nat.gcd (a % m) m = 1) :
    ∃ x, inverse_mod a m = some x := by
  obtain ⟨y, hy⟩ := egcdLoop_total (a % m) (a % m) m 1 0 le_rfl h1 hco
  exact ⟨(y % (m : ℤ)).toNat, by rw [inverse_mod, if_neg hm, hy]; rfl⟩

/-- When `a ≡ 0 (mod m)` the Python loop divides by zero and raises. -/
lemma inverse_mod_none_of_mod_zero {a m : ℕ} (h : a % m = 0) : inverse_mod a m = none := by
  by_cases hm : m = 0
  · simp [inverse_mod, hm]
  · rw [inverse_mod, if_neg hm, h]
    rfl

/-- Two modular inverses of the same element agree modulo `n`. -/
lemma mod_inv_unique {n a b c : ℕ} (hb : (a * b) % n = 1 % n) (hc : (a * c) % n = 1 % n) :
    b % n = c % n := by
  have hb' : a * b ≡ 1 [MOD n] := hb
  have hc' : a * c ≡ 1 [MOD n] := hc
  have h1 : b * (a * c) ≡ b * 1 [MOD n] := hc'.mul_left b
  have h2 : c * (a * b) ≡ c * 1 [MOD n] := hb'.mul_left c
  have h3 : b * (a * c) = c * (a * b) := by ring
  have hfinal : b ≡ c [MOD n] := by
    calc b ≡ b * (a * c) [MOD n] := by simpa using h1.symm
      _ = c * (a * b) := h3
      _ ≡ c [MOD n] := by simpa using h2
  exact hfinal

/-! ## Helper lemmas: the lattice builder -/

lemma optList_length {α β : Type} (f : α → Option β) :
    ∀ (l : List α) (bs : List β), optList f l = some bs → bs.length = l.length := by
  intro l
  induction l with
  | nil => intro bs h; simp [optList] at h; simp [h.symm]
  | cons a rest ih =>
    intro bs h
    simp only [optList, Option.bind_eq_some, Option.map_eq_some'] at h
    obtain ⟨b, _, bs', hbs', rfl⟩ := h
    simp [ih bs' hbs']

lemma optList_getD {α β : Type} (f : α → Option β) (d : β) :
    ∀ (l : List α) (bs : List β), optList f l = some bs →
      ∀ (i : ℕ) (h : i < l.length), f (l.get ⟨i, h⟩) = some (bs.getD i d) := by
  intro l
  induction l with
  | nil => intro bs _ i h; simp at h
  | cons a rest ih =>
    intro bs hsome i h
    simp only [optList, Option.bind_eq_some, Option.map_eq_some'] at hsome
    obtain ⟨b, hb, bs', hbs', rfl⟩ := hsome
    match i with
    | 0 => simpa using hb
    | k + 1 =>
      have hk : k < rest.length := by simpa using h
      simpa using ih bs' hbs' k hk

/-- Full characterization of a successful LSB `build_matrix` call. -/
lemma build_matrix_eq_lsb (sigs : List Sig) (curve : Curve) (num_bits : ℕ)
    (hash_val : Option ℕ) (L : ℕ → ℕ → ℤ)
    (hL : build_matrix sigs curve num_bits BitsType.LSB hash_val = some L) :
    ∃ row_m row_m1,
      optList (lsb_col_m (2 ^ num_bits) (curve_n curve)) sigs = some row_m ∧
      optList (lsb_col_m1 (2 ^ num_bits) (curve_n curve) hash_val) sigs = some row_m1 ∧
      ∀ i j, L i j =
        if i < sigs.length ∧ j = i then 2 * ((2 ^ num_bits : ℕ) : ℤ) * (curve_n curve : ℤ)
        else if i = sigs.length ∧ j < sigs.length then row_m.getD j 0
        else if i = sigs.length + 1 ∧ j < sigs.length then row_m1.getD j 0
        else if i = sigs.length ∧ j = sigs.length then 1
        else if i = sigs.length + 1 ∧ j = sigs.length + 1 then (curve_n curve : ℤ)
        else 0 := by
  simp only [build_matrix, Option.map_eq_some', Option.bind_eq_some] at hL
  obtain ⟨rows, ⟨row_m, hrm, hmap⟩, rfl⟩ := hL
  obtain ⟨row_m1, hrm1, hrows⟩ := hmap
  subst hrows
  exact ⟨row_m, row_m1, hrm, hrm1, fun i j => rfl⟩

/-- Full characterization of a successful MSB `build_matrix` call. -/
lemma build_matrix_eq_msb (sigs : List Sig) (curve : Curve) (num_bits : ℕ)
    (hash_val : Option ℕ) (L : ℕ → ℕ → ℤ)
    (hL : build_matrix sigs curve num_bits BitsType.MSB hash_val = some L) :
    ∃ row_m row_m1,
      optList (msb_col_m (2 ^ num_bits) (curve_n curve)) sigs = some row_m ∧
      optList (msb_col_m1 (2 ^ num_bits) (curve_n curve) (2 ^ curve_size curve) hash_val) sigs =
        some row_m1 ∧
      ∀ i j, L i j =
        if i < sigs.length ∧ j = i then 2 * ((2 ^ num_bits : ℕ) : ℤ) * (curve_n curve : ℤ)
        else if i = sigs.length ∧ j < sigs.length then row_m.getD j 0
        else if i = sigs.length + 1 ∧ j < sigs.length then row_m1.getD j 0
        else if i = sigs.length ∧ j = sigs.length then 1
        else if i = sigs.length + 1 ∧ j = sigs.length + 1 then (curve_n curve : ℤ)
        else 0 := by
  simp only [build_matrix, Option.map_eq_some', Option.bind_eq_some] at hL
  obtain ⟨rows, ⟨row_m, hrm, hmap⟩, rfl⟩ := hL
  obtain ⟨row_m1, hrm1, hrows⟩ := hmap
  subst hrows
  exact ⟨row_m, row_m1, hrm, hrm1, fun i j => rfl⟩

lemma natMod_to_intModEq {n a b : ℕ} (h : a % n = b % n) :
    (a : ℤ) ≡ (b : ℤ) [ZMOD (n : ℤ)] := by
  have hc := congrArg (fun t : ℕ => (t : ℤ)) h
  simpa [Int.ModEq, Int.natCast_mod] using hc

lemma lsb_col_m_some {kbi n : ℕ} {sg : Sig} {v : ℤ} (h : lsb_col_m kbi n sg = some v) :
    ∃ ki si, inverse_mod kbi n = some ki ∧ inverse_mod sg.s n = some si ∧
      v = 2 * (kbi : ℤ) * (((ki : ℤ) * ((sg.r : ℤ) * (si : ℤ))) % (n : ℤ)) := by
  rcases hki : inverse_mod kbi n with _ | ki
  · rw [lsb_col_m, hki] at h; simp at h
  rcases hsi : inverse_mod sg.s n with _ | si
  · rw [lsb_col_m, hki, hsi] at h; simp at h
  rw [lsb_col_m, hki, hsi] at h
  simp only [Option.some_bind, Option.map_some', Option.some_inj] at h
  exact ⟨ki, si, rfl, rfl, h.symm⟩

lemma lsb_col_m1_some {kbi n : ℕ} {hv : Option ℕ} {sg : Sig} {v : ℤ}
    (h : lsb_col_m1 kbi n hv sg = some v) :
    ∃ ki si, inverse_mod kbi n = some ki ∧ inverse_mod sg.s n = some si ∧
      v = 2 * (kbi : ℤ) *
            (((ki : ℤ) * ((sg.kp : ℤ) - (hash_for hv sg : ℤ) * (si : ℤ))) % (n : ℤ)) +
          (n : ℤ) := by
  rcases hki : inverse_mod kbi n with _ | ki
  · rw [lsb_col_m1, hki] at h; simp at h
  rcases hsi : inverse_mod sg.s n with _ | si
  · rw [lsb_col_m1, hki, hsi] at h; simp at h
  rw [lsb_col_m1, hki, hsi] at h
  simp only [Option.some_bind, Option.map_some', Option.some_inj] at h
  exact ⟨ki, si, rfl, rfl, h.symm⟩

lemma msb_col_m_some {kbi n : ℕ} {sg : Sig} {v : ℤ} (h : msb_col_m kbi n sg = some v) :
    ∃ si, inverse_mod sg.s n = some si ∧
      v = 2 * (kbi : ℤ) * (((sg.r : ℤ) * (si : ℤ)) % (n : ℤ)) := by
  rcases hsi : inverse_mod sg.s n with _ | si
  · rw [msb_col_m, hsi] at h; simp at h
  rw [msb_col_m, hsi] at h
  simp only [Option.map_some', Option.some_inj] at h
  exact ⟨si, rfl, h.symm⟩

lemma msb_col_m1_some {kbi n card : ℕ} {hv : Option ℕ} {sg : Sig} {v : ℤ}
    (h : msb_col_m1 kbi n card hv sg = some v) :
    ∃ si, inverse_mod sg.s n = some si ∧
      v = 2 * (kbi : ℤ) *
            ((sg.kp : ℤ) * ((card / kbi : ℕ) : ℤ) - (hash_for hv sg : ℤ) * (si : ℤ)) +
          (n : ℤ) := by
  rcases hsi : inverse_mod sg.s n with _ | si
  · rw [msb_col_m1, hsi] at h; simp at h
  rw [msb_col_m1, hsi] at h
  simp only [Option.map_some', Option.some_inj] at h
  exact ⟨si, rfl, h.symm⟩

/-- C1: for every LSB problem instance, the matrix returned by
`build_matrix` satisfies, for every `i < m`,
`L[m, i] = 2·K·((K⁻¹·r_i·s_i⁻¹) mod n)` and
`L[m+1, i] = 2·K·((K⁻¹·(kp_i − h_i·s_i⁻¹)) mod n) + n`, where `K = 2^ℓ`,
`K⁻¹` and `s_i⁻¹` are any modular inverses of `K` and `s_i` mod `n`, and
`h_i` is the global hash when one is supplied and the sample's own hash
otherwise (`hash_for`). -/
theorem build_matrix_lsb_entries
    (sigs : List Sig) (curve : Curve) (num_bits : ℕ) (hash_val : Option ℕ)
    (L : ℕ → ℕ → ℤ)
    (hL : build_matrix sigs curve num_bits BitsType.LSB hash_val = some L)
    (i : ℕ) (hi : i < sigs.length) (ki si : ℕ)
    (hki : (2 ^ num_bits * ki) % curve_n curve = 1 % curve_n curve)
    (hsi : ((sigs.get ⟨i, hi⟩).s * si) % curve_n curve = 1 % curve_n curve) :
    L sigs.length i =
      2 * ((2 ^ num_bits : ℕ) : ℤ) *
        (((ki : ℤ) * (((sigs.get ⟨i, hi⟩).r : ℤ) * (si : ℤ))) % (curve_n curve : ℤ)) ∧
    L (sigs.length + 1) i =
      2 * ((2 ^ num_bits : ℕ) : ℤ) *
        (((ki : ℤ) * (((sigs.get ⟨i, hi⟩).kp : ℤ) -
            (hash_for hash_val (sigs.get ⟨i, hi⟩) : ℤ) * (si : ℤ))) % (curve_n curve : ℤ)) +
      (curve_n curve : ℤ) := by
  obtain ⟨row_m, row_m1, hrm, hrm1, hfun⟩ := build_matrix_eq_lsb sigs curve num_bits hash_val L hL
  obtain ⟨ki0, si0, hki0, hsi0, hv0⟩ := lsb_col_m_some (optList_getD _ (0 : ℤ) sigs row_m hrm i hi)
  obtain ⟨ki1, si1, hki1, hsi1, hv1⟩ :=
    lsb_col_m1_some (optList_getD _ (0 : ℤ) sigs row_m1 hrm1 i hi)
  have hkieq : ki1 = ki0 := by rw [hki1] at hki0; injection hki0
  have hsieq : si1 = si0 := by rw [hsi1] at hsi0; injection hsi0
  rw [hkieq, hsieq] at hv1
  obtain ⟨hki0lt, hki0inv⟩ := inverse_mod_correct hki0
  obtain ⟨hsi0lt, hsi0inv⟩ := inverse_mod_correct hsi0
  have hkic : (ki0 : ℤ) ≡ (ki : ℤ) [ZMOD (curve_n curve : ℤ)] :=
    natMod_to_intModEq (mod_inv_unique hki0inv hki)
  have hsic : (si0 : ℤ) ≡ (si : ℤ) [ZMOD (curve_n curve : ℤ)] :=
    natMod_to_intModEq (mod_inv_unique hsi0inv hsi)
  constructor
  · have e1 : L sigs.length i = row_m.getD i 0 := by
      rw [hfun, if_neg (by omega), if_pos ⟨rfl, hi⟩]
    have hmod : ((ki0 : ℤ) * (((sigs.get ⟨i, hi⟩).r : ℤ) * (si0 : ℤ))) % (curve_n curve : ℤ) =
        ((ki : ℤ) * (((sigs.get ⟨i, hi⟩).r : ℤ) * (si : ℤ))) % (curve_n curve : ℤ) :=
      hkic.mul ((Int.ModEq.refl _).mul hsic)
    rw [e1, hv0, hmod]
  · have e1 : L (sigs.length + 1) i = row_m1.getD i 0 := by
      rw [hfun, if_neg (by omega), if_neg (by omega), if_pos ⟨rfl, hi⟩]
    have hmod : ((ki0 : ℤ) * (((sigs.get ⟨i, hi⟩).kp : ℤ) -
          (hash_for hash_val (sigs.get ⟨i, hi⟩) : ℤ) * (si0 : ℤ))) % (curve_n curve : ℤ) =
        ((ki : ℤ) * (((sigs.get ⟨i, hi⟩).kp : ℤ) -
          (hash_for hash_val (sigs.get ⟨i, hi⟩) : ℤ) * (si : ℤ))) % (curve_n curve : ℤ) :=
      hkic.mul ((Int.ModEq.refl _).sub ((Int.ModEq.refl _).mul hsic))
    rw [e1, hv1, hmod]

/-- Witness for C1 at a concrete instance: curve SECP256K1, `ℓ = 4`,
one sample `(r, s, kp, hash) = (1, 1, 0, 0)`, no global hash. -/
theorem build_matrix_lsb_entries_witness :
    ∃ L, build_matrix [⟨1, 1, 0, 0⟩] Curve.SECP256K1 4 BitsType.LSB none = some L ∧
      L 1 0 = 2 * ((2 ^ 4 : ℕ) : ℤ) *
        ((((curve_n Curve.SECP256K1 - curve_n Curve.SECP256K1 / 16 : ℕ) : ℤ) *
          ((1 : ℤ) * (1 : ℤ))) % (curve_n Curve.SECP256K1 : ℤ)) ∧
      L 2 0 = 2 * ((2 ^ 4 : ℕ) : ℤ) *
        ((((curve_n Curve.SECP256K1 - curve_n Curve.SECP256K1 / 16 : ℕ) : ℤ) *
          ((0 : ℤ) - (0 : ℤ) * (1 : ℤ))) % (curve_n Curve.SECP256K1 : ℤ)) +
        (curve_n Curve.SECP256K1 : ℤ) := by
  obtain ⟨L, hL⟩ :
      ∃ L, build_matrix [⟨1, 1, 0, 0⟩] Curve.SECP256K1 4 BitsType.LSB none = some L := ⟨_, rfl⟩
  refine ⟨L, hL, ?_⟩
  have h := build_matrix_lsb_entries [⟨1, 1, 0, 0⟩] Curve.SECP256K1 4 none L hL 0 (by decide)
      (curve_n Curve.SECP256K1 - curve_n Curve.SECP256K1 / 16) 1 (by decide) (by decide)
  simpa [hash_for] using h

/-- C2: for every MSB problem instance and every supported curve,
`build_matrix` computes, for every `i < m`,
`L[m, i] = 2·K·((r_i·s_i⁻¹) mod n)` and
`L[m+1, i] = 2·K·(kp_i·(C div K) − h_i·s_i⁻¹) + n` with `C = 2^B`, `B`
the bit size of the chosen curve (`curve_size`), not a hard-coded
`2^256`; `s_i⁻¹` is the canonical inverse in `[0, n)`. -/
theorem build_matrix_msb_entries
    (sigs : List Sig) (curve : Curve) (num_bits : ℕ) (hash_val : Option ℕ)
    (L : ℕ → ℕ → ℤ)
    (hL : build_matrix sigs curve num_bits BitsType.MSB hash_val = some L)
    (i : ℕ) (hi : i < sigs.length) (si : ℕ) (hsilt : si < curve_n curve)
    (hsi : ((sigs.get ⟨i, hi⟩).s * si) % curve_n curve = 1 % curve_n curve) :
    L sigs.length i =
      2 * ((2 ^ num_bits : ℕ) : ℤ) *
        ((((sigs.get ⟨i, hi⟩).r : ℤ) * (si : ℤ)) % (curve_n curve : ℤ)) ∧
    L (sigs.length + 1) i =
      2 * ((2 ^ num_bits : ℕ) : ℤ) *
        (((sigs.get ⟨i, hi⟩).kp : ℤ) * ((2 ^ curve_size curve / 2 ^ num_bits : ℕ) : ℤ) -
          (hash_for hash_val (sigs.get ⟨i, hi⟩) : ℤ) * (si : ℤ)) +
      (curve_n curve : ℤ) := by
  obtain ⟨row_m, row_m1, hrm, hrm1, hfun⟩ := build_matrix_eq_msb sigs curve num_bits hash_val L hL
  obtain ⟨si0, hsi0, hv0⟩ := msb_col_m_some (optList_getD _ (0 : ℤ) sigs row_m hrm i hi)
  obtain ⟨si1, hsi1, hv1⟩ := msb_col_m1_some (optList_getD _ (0 : ℤ) sigs row_m1 hrm1 i hi)
  have hsieq : si1 = si0 := by rw [hsi1] at hsi0; injection hsi0
  rw [hsieq] at hv1
  obtain ⟨hsi0lt, hsi0inv⟩ := inverse_mod_correct hsi0
  have hsi0si : si0 = si := by
    have hmm := mod_inv_unique hsi0inv hsi
    rwa [Nat.mod_eq_of_lt hsi0lt, Nat.mod_eq_of_lt hsilt] at hmm
  rw [hsi0si] at hv0 hv1
  constructor
  · rw [hfun, if_neg (by omega), if_pos ⟨rfl, hi⟩, hv0]
  · rw [hfun, if_neg (by omega), if_neg (by omega), if_pos ⟨rfl, hi⟩, hv1]

/-- Witness for C2 at a concrete instance: curve SECP224R1 (a curve whose
bit size is not 256, so `C = 2^224`), `ℓ = 4`, one sample
`(r, s, kp, hash) = (1, 1, 3, 5)`, no global hash. -/
theorem build_matrix_msb_entries_witness :
    ∃ L, build_matrix [⟨1, 1, 3, 5⟩] Curve.SECP224R1 4 BitsType.MSB none = some L ∧
      L 1 0 = 2 * ((2 ^ 4 : ℕ) : ℤ) * (((1 : ℤ) * (1 : ℤ)) % (curve_n Curve.SECP224R1 : ℤ)) ∧
      L 2 0 = 2 * ((2 ^ 4 : ℕ) : ℤ) *
          ((3 : ℤ) * ((2 ^ 224 / 2 ^ 4 : ℕ) : ℤ) - (5 : ℤ) * (1 : ℤ)) +
        (curve_n Curve.SECP224R1 : ℤ) := by
  obtain ⟨L, hL⟩ :
      ∃ L, build_matrix [⟨1, 1, 3, 5⟩] Curve.SECP224R1 4 BitsType.MSB none = some L := ⟨_, rfl⟩
  refine ⟨L, hL, ?_⟩
  have h := build_matrix_msb_entries [⟨1, 1, 3, 5⟩] Curve.SECP224R1 4 none L hL 0 (by decide)
      1 (by decide) (by decide)
  simpa [hash_for, curve_size] using h

/-! ## Helper lemmas: basis shape (C4) -/

lemma curve_n_two_le (curve : Curve) : 2 ≤ curve_n curve := by
  cases curve <;> decide

lemma curve_n_odd (curve : Curve) : curve_n curve % 2 = 1 := by
  cases curve <;> decide

lemma coprime_of_inv_left {a x n : ℕ} (hn : 2 ≤ n) (h : (a * x) % n = 1 % n) :
    Nat.Coprime a n := by
  have h1 : (a * x) % n = 1 := by rw [h, Nat.mod_eq_of_lt (by omega)]
  have hdm := Nat.div_add_mod (a * x) n
  obtain ⟨q, hq⟩ : ∃ q, a * x = n * q + 1 := ⟨a * x / n, by omega⟩
  have d1 : Nat.gcd a n ∣ a * x := Dvd.dvd.mul_right (Nat.gcd_dvd_left a n) x
  have d2 : Nat.gcd a n ∣ n * q := Dvd.dvd.mul_right (Nat.gcd_dvd_right a n) q
  have d3 : Nat.gcd a n ∣ (n * q + 1) - n * q := Nat.dvd_sub' (hq ▸ d1) d2
  have d4 : Nat.gcd a n ∣ 1 := by simpa using d3
  exact Nat.dvd_one.mp d4

lemma coprime_of_inv_right {a x n : ℕ} (hn : 2 ≤ n) (h : (a * x) % n = 1 % n) :
    Nat.Coprime x n :=
  coprime_of_inv_left hn (by rwa [mul_comm] at h)

lemma int_cast_mod_ne_zero {a n : ℕ} (hn : 2 ≤ n) (h : Nat.Coprime a n) :
    ((a : ℤ) % (n : ℤ)) ≠ 0 := by
  have hmod : a % n ≠ 0 := by
    intro hz
    have hd : n ∣ a := Nat.dvd_of_mod_eq_zero hz
    have hdd : n ∣ Nat.gcd a n := Nat.dvd_gcd hd dvd_rfl
    rw [h] at hdd
    have := Nat.dvd_one.mp hdd
    omega
  rw [← Int.natCast_mod]
  exact_mod_cast hmod

/-- The shape facts shared by both branches of `build_matrix`: values on
the diagonal block and tail, the exact set of nonzero positions, and the
count `3m + 2` of nonzero entries in the `(m+2) × (m+2)` square. -/
lemma matrix_shape_of_rows (m kbi n : ℕ) (hn : 2 ≤ n) (hkbi : 1 ≤ kbi)
    (row_m row_m1 : List ℤ) (L : ℕ → ℕ → ℤ)
    (hfun : ∀ i j, L i j =
      if i < m ∧ j = i then 2 * ((kbi : ℕ) : ℤ) * (n : ℤ)
      else if i = m ∧ j < m then row_m.getD j 0
      else if i = m + 1 ∧ j < m then row_m1.getD j 0
      else if i = m ∧ j = m then 1
      else if i = m + 1 ∧ j = m + 1 then (n : ℤ)
      else 0)
    (hrm_ne : ∀ j, j < m → row_m.getD j 0 ≠ 0)
    (hrm1_ne : ∀ j, j < m → row_m1.getD j 0 ≠ 0) :
    (∀ i, i < m → L i i = 2 * ((kbi : ℕ) : ℤ) * (n : ℤ)) ∧
    L m m = 1 ∧ L (m + 1) (m + 1) = (n : ℤ) ∧
    (∀ i j, L i j ≠ 0 ↔
      ((i < m ∧ j = i) ∨ (i = m ∧ j < m) ∨ (i = m + 1 ∧ j < m) ∨
       (i = m ∧ j = m) ∨ (i = m + 1 ∧ j = m + 1))) ∧
    ((Finset.range (m + 2) ×ˢ Finset.range (m + 2)).filter
        (fun p => L p.1 p.2 ≠ 0)).card = 3 * m + 2 := by
  have hdiag_ne : 2 * ((kbi : ℕ) : ℤ) * (n : ℤ) ≠ 0 := by
    have h2 : (0 : ℤ) < (kbi : ℤ) := by exact_mod_cast hkbi
    have h3 : (0 : ℤ) < (n : ℤ) := by exact_mod_cast (by omega : 0 < n)
    positivity
  have hn_ne : ((n : ℕ) : ℤ) ≠ 0 := by
    exact_mod_cast (by omega : n ≠ 0)
  have hiff : ∀ i j, L i j ≠ 0 ↔
      ((i < m ∧ j = i) ∨ (i = m ∧ j < m) ∨ (i = m + 1 ∧ j < m) ∨
       (i = m ∧ j = m) ∨ (i = m + 1 ∧ j = m + 1)) := by
    intro i j
    rw [hfun]
    split_ifs with h1 h2 h3 h4 h5
    · exact iff_of_true hdiag_ne (Or.inl h1)
    · exact iff_of_true (hrm_ne j h2.2) (Or.inr (Or.inl h2))
    · exact iff_of_true (hrm1_ne j h3.2) (Or.inr (Or.inr (Or.inl h3)))
    · exact iff_of_true one_ne_zero (Or.inr (Or.inr (Or.inr (Or.inl h4))))
    · exact iff_of_true hn_ne (Or.inr (Or.inr (Or.inr (Or.inr h5))))
    · constructor
      · intro h0; exact absurd rfl h0
      · intro hpos; omega
  refine ⟨?_, ?_, ?_, hiff, ?_⟩
  · intro i hilt
    rw [hfun, if_pos ⟨hilt, rfl⟩]
  · rw [hfun, if_neg (by omega), if_neg (by omega), if_neg (by omega), if_pos ⟨rfl, rfl⟩]
  · rw [hfun, if_neg (by omega), if_neg (by omega), if_neg (by omega), if_neg (by omega),
      if_pos ⟨rfl, rfl⟩]
  · have hfe : ((Finset.range (m + 2) ×ˢ Finset.range (m + 2)).filter
        (fun p => L p.1 p.2 ≠ 0)) =
        ((Finset.range (m + 2) ×ˢ Finset.range (m + 2)).filter
        (fun p => (p.1 < m ∧ p.2 = p.1) ∨ (p.1 = m ∧ p.2 < m) ∨ (p.1 = m + 1 ∧ p.2 < m) ∨
          (p.1 = m ∧ p.2 = m) ∨ (p.1 = m + 1 ∧ p.2 = m + 1))) := by
      apply Finset.filter_congr
      intro p _
      exact hiff p.1 p.2
    rw [hfe, Finset.card_filter, Finset.sum_product]
    have hsum : ∀ i ∈ Finset.range (m + 2),
        ((Finset.range (m + 2)).sum fun j =>
          if (i < m ∧ j = i) ∨ (i = m ∧ j < m) ∨ (i = m + 1 ∧ j < m) ∨
            (i = m ∧ j = m) ∨ (i = m + 1 ∧ j = m + 1) then 1 else 0) =
        if i < m then 1 else m + 1 := by
      intro i hi
      have hi2 : i < m + 2 := Finset.mem_range.mp hi
      by_cases hcase1 : i < m
      · have hc : ∀ j ∈ Finset.range (m + 2),
            (if (i < m ∧ j = i) ∨ (i = m ∧ j < m) ∨ (i = m + 1 ∧ j < m) ∨
              (i = m ∧ j = m) ∨ (i = m + 1 ∧ j = m + 1) then (1 : ℕ) else 0) =
            if j = i then 1 else 0 := by
          intro j _
          exact if_congr (by constructor <;> (intro h; omega)) rfl rfl
        rw [Finset.sum_congr rfl hc, Finset.sum_ite_eq' (Finset.range (m + 2)) i fun _ => 1,
          if_pos (Finset.mem_range.mpr (by omega)), if_pos hcase1]
      by_cases hcase2 : i = m
      · have hc : ∀ j ∈ Finset.range (m + 2),
            (if (i < m ∧ j = i) ∨ (i = m ∧ j < m) ∨ (i = m + 1 ∧ j < m) ∨
              (i = m ∧ j = m) ∨ (i = m + 1 ∧ j = m + 1) then (1 : ℕ) else 0) =
            if j < m + 1 then 1 else 0 := by
          intro j _
          exact if_congr (by constructor <;> (intro h; omega)) rfl rfl
        rw [Finset.sum_congr rfl hc, ← Finset.card_filter]
        have hfr : (Finset.range (m + 2)).filter (fun j => j < m + 1) = Finset.range (m + 1) := by
          apply Finset.ext
          intro j
          simp only [Finset.mem_filter, Finset.mem_range]
          omega
        rw [hfr, Finset.card_range, if_neg (by omega)]
      · have hcase3 : i = m + 1 := by omega
        have hc : ∀ j ∈ Finset.range (m + 2),
            (if (i < m ∧ j = i) ∨ (i = m ∧ j < m) ∨ (i = m + 1 ∧ j < m) ∨
              (i = m ∧ j = m) ∨ (i = m + 1 ∧ j = m + 1) then (1 : ℕ) else 0) =
            if j < m ∨ j = m + 1 then 1 else 0 := by
          intro j _
          exact if_congr (by constructor <;> (intro h; omega)) rfl rfl
        rw [Finset.sum_congr rfl hc, ← Finset.card_filter]
        have hfr : (Finset.range (m + 2)).filter (fun j => j < m ∨ j = m + 1) =
            insert (m + 1) (Finset.range m) := by
          apply Finset.ext
          intro j
          simp only [Finset.mem_filter, Finset.mem_range, Finset.mem_insert]
          omega
        rw [hfr, Finset.card_insert_of_not_mem (by simp), Finset.card_range, if_neg (by omega)]
    rw [Finset.sum_congr rfl hsum, Finset.sum_range_succ, Finset.sum_range_succ]
    have hfin : (Finset.range m).sum (fun i => if i < m then 1 else m + 1) = m := by
      rw [Finset.sum_congr rfl fun i hi => if_pos (Finset.mem_range.mp hi)]
      simp
    rw [hfin, if_neg (by omega), if_neg (by omega)]
    ring

/-- C4: for every valid problem instance with `m` sampled signatures (all
`r_i`, `s_i` in `[1, n−1]` and invertible mod `n`), `build_matrix`
returns an `(m+2) × (m+2)` matrix with exactly `3m + 2` nonzero entries,
located only at the canonical positions `L[i,i] = 2·K·n` (`i < m`), the
entries `L[m, i]` and `L[m+1, i]` for `i < m`, `L[m,m] = 1` and
`L[m+1, m+1] = n`; every other entry is zero. -/
theorem build_matrix_shape
    (sigs : List Sig) (curve : Curve) (num_bits : ℕ) (bits_type : BitsType)
    (hash_val : Option ℕ) (L : ℕ → ℕ → ℤ)
    (hL : build_matrix sigs curve num_bits bits_type hash_val = some L)
    (hr : ∀ sg ∈ sigs, 1 ≤ sg.r ∧ sg.r < curve_n curve ∧ Nat.Coprime sg.r (curve_n curve))
    (hs : ∀ sg ∈ sigs, 1 ≤ sg.s ∧ sg.s < curve_n curve ∧ Nat.Coprime sg.s (curve_n curve)) :
    (∀ i, i < sigs.length → L i i = 2 * ((2 ^ num_bits : ℕ) : ℤ) * (curve_n curve : ℤ)) ∧
    L sigs.length sigs.length = 1 ∧
    L (sigs.length + 1) (sigs.length + 1) = (curve_n curve : ℤ) ∧
    (∀ i j, L i j ≠ 0 ↔
      ((i < sigs.length ∧ j = i) ∨ (i = sigs.length ∧ j < sigs.length) ∨
       (i = sigs.length + 1 ∧ j < sigs.length) ∨ (i = sigs.length ∧ j = sigs.length) ∨
       (i = sigs.length + 1 ∧ j = sigs.length + 1))) ∧
    ((Finset.range (sigs.length + 2) ×ˢ Finset.range (sigs.length + 2)).filter
        (fun p => L p.1 p.2 ≠ 0)).card = 3 * sigs.length + 2 := by
  have hn := curve_n_two_le curve
  have hkbi : 1 ≤ 2 ^ num_bits := pow_pos (by norm_num : (0 : ℕ) < 2) num_bits
  have hkbi_ne : ((2 ^ num_bits : ℕ) : ℤ) ≠ 0 := Nat.cast_ne_zero.mpr (by omega)
  have hn_ne : (curve_n curve : ℤ) ≠ 0 := Nat.cast_ne_zero.mpr (by omega)
  have hn_two : (2 : ℤ) ≤ (curve_n curve : ℤ) := by exact_mod_cast hn
  cases bits_type with
  | LSB =>
    obtain ⟨row_m, row_m1, hrm, hrm1, hfun⟩ :=
      build_matrix_eq_lsb sigs curve num_bits hash_val L hL
    have hrm_ne : ∀ j, j < sigs.length → row_m.getD j 0 ≠ 0 := by
      intro j hj
      obtain ⟨ki0, si0, hki0, hsi0, hv0⟩ :=
        lsb_col_m_some (optList_getD _ (0 : ℤ) sigs row_m hrm j hj)
      have hki0c : Nat.Coprime ki0 (curve_n curve) :=
        coprime_of_inv_right hn (inverse_mod_correct hki0).2
      have hsi0c : Nat.Coprime si0 (curve_n curve) :=
        coprime_of_inv_right hn (inverse_mod_correct hsi0).2
      have hrc : Nat.Coprime (sigs.get ⟨j, hj⟩).r (curve_n curve) :=
        (hr _ (sigs.get_mem _ _)).2.2
      have hprod : Nat.Coprime (ki0 * ((sigs.get ⟨j, hj⟩).r * si0)) (curve_n curve) :=
        Nat.Coprime.mul hki0c (Nat.Coprime.mul hrc hsi0c)
      have hx := int_cast_mod_ne_zero hn hprod
      rw [hv0]
      have hcast : ((ki0 : ℤ) * (((sigs.get ⟨j, hj⟩).r : ℤ) * (si0 : ℤ))) =
          ((ki0 * ((sigs.get ⟨j, hj⟩).r * si0) : ℕ) : ℤ) := by push_cast; ring
      rw [hcast]
      exact mul_ne_zero (mul_ne_zero two_ne_zero hkbi_ne) hx
    have hrm1_ne : ∀ j, j < sigs.length → row_m1.getD j 0 ≠ 0 := by
      intro j hj
      obtain ⟨ki0, si0, hki0, hsi0, hv1⟩ :=
        lsb_col_m1_some (optList_getD _ (0 : ℤ) sigs row_m1 hrm1 j hj)
      rw [hv1]
      have hnonneg : 0 ≤ ((ki0 : ℤ) * (((sigs.get ⟨j, hj⟩).kp : ℤ) -
          (hash_for hash_val (sigs.get ⟨j, hj⟩) : ℤ) * (si0 : ℤ))) % (curve_n curve : ℤ) :=
        Int.emod_nonneg _ hn_ne
      have hfac : (0 : ℤ) ≤ 2 * ((2 ^ num_bits : ℕ) : ℤ) *
          (((ki0 : ℤ) * (((sigs.get ⟨j, hj⟩).kp : ℤ) -
            (hash_for hash_val (sigs.get ⟨j, hj⟩) : ℤ) * (si0 : ℤ))) % (curve_n curve : ℤ)) := by
        have h2 : (0 : ℤ) ≤ 2 * ((2 ^ num_bits : ℕ) : ℤ) := by positivity
        exact mul_nonneg h2 hnonneg
      intro h0
      linarith
    exact matrix_shape_of_rows sigs.length (2 ^ num_bits) (curve_n curve) hn hkbi
      row_m row_m1 L hfun hrm_ne hrm1_ne
  | MSB =>
    obtain ⟨row_m, row_m1, hrm, hrm1, hfun⟩ :=
      build_matrix_eq_msb sigs curve num_bits hash_val L hL
    have hrm_ne : ∀ j, j < sigs.length → row_m.getD j 0 ≠ 0 := by
      intro j hj
      obtain ⟨si0, hsi0, hv0⟩ := msb_col_m_some (optList_getD _ (0 : ℤ) sigs row_m hrm j hj)
      have hsi0c : Nat.Coprime si0 (curve_n curve) :=
        coprime_of_inv_right hn (inverse_mod_correct hsi0).2
      have hrc : Nat.Coprime (sigs.get ⟨j, hj⟩).r (curve_n curve) :=
        (hr _ (sigs.get_mem _ _)).2.2
      have hprod : Nat.Coprime ((sigs.get ⟨j, hj⟩).r * si0) (curve_n curve) :=
        Nat.Coprime.mul hrc hsi0c
      have hx := int_cast_mod_ne_zero hn hprod
      rw [hv0]
      have hcast : (((sigs.get ⟨j, hj⟩).r : ℤ) * (si0 : ℤ)) =
          (((sigs.get ⟨j, hj⟩).r * si0 : ℕ) : ℤ) := by push_cast; ring
      rw [hcast]
      exact mul_ne_zero (mul_ne_zero two_ne_zero hkbi_ne) hx
    have hrm1_ne : ∀ j, j < sigs.length → row_m1.getD j 0 ≠ 0 := by
      intro j hj
      obtain ⟨si0, hsi0, hv1⟩ := msb_col_m1_some (optList_getD _ (0 : ℤ) sigs row_m1 hrm1 j hj)
      rw [hv1]
      intro h0
      have h2dvd : (2 : ℤ) ∣ (curve_n curve : ℤ) := by
        refine ⟨-(((2 ^ num_bits : ℕ) : ℤ) *
          (((sigs.get ⟨j, hj⟩).kp : ℤ) *
            ((2 ^ curve_size curve / 2 ^ num_bits : ℕ) : ℤ) -
            (hash_for hash_val (sigs.get ⟨j, hj⟩) : ℤ) * (si0 : ℤ))), ?_⟩
        linarith
      have h2n : (2 : ℕ) ∣ curve_n curve := by exact_mod_cast h2dvd
      have hodd := curve_n_odd curve
      omega
    exact matrix_shape_of_rows sigs.length (2 ^ num_bits) (curve_n curve) hn hkbi
      row_m row_m1 L hfun hrm_ne hrm1_ne

/-- Witness for C4 at a concrete instance: curve SECP256K1, `ℓ = 4`, LSB,
one sample `(r, s, kp, hash) = (1, 1, 0, 0)`. -/
theorem build_matrix_shape_witness :
    ∃ L, build_matrix [⟨1, 1, 0, 0⟩] Curve.SECP256K1 4 BitsType.LSB none = some L ∧
      L 0 0 = 2 * ((2 ^ 4 : ℕ) : ℤ) * (curve_n Curve.SECP256K1 : ℤ) ∧
      L 1 1 = 1 ∧ L 2 2 = (curve_n Curve.SECP256K1 : ℤ) ∧ L 1 0 ≠ 0 ∧ L 0 1 = 0 ∧
      ((Finset.range 3 ×ˢ Finset.range 3).filter (fun p => L p.1 p.2 ≠ 0)).card = 5 := by
  obtain ⟨L, hL⟩ :
      ∃ L, build_matrix [⟨1, 1, 0, 0⟩] Curve.SECP256K1 4 BitsType.LSB none = some L := ⟨_, rfl⟩
  have hsample : ∀ sg ∈ [(⟨1, 1, 0, 0⟩ : Sig)],
      1 ≤ sg.r ∧ sg.r < curve_n Curve.SECP256K1 ∧ Nat.Coprime sg.r (curve_n Curve.SECP256K1) := by
    intro sg hsg
    rw [List.mem_singleton] at hsg
    subst hsg
    exact ⟨le_refl 1, by decide, Nat.coprime_one_left _⟩
  have hsample2 : ∀ sg ∈ [(⟨1, 1, 0, 0⟩ : Sig)],
      1 ≤ sg.s ∧ sg.s < curve_n Curve.SECP256K1 ∧ Nat.Coprime sg.s (curve_n Curve.SECP256K1) := by
    intro sg hsg
    rw [List.mem_singleton] at hsg
    subst hsg
    exact ⟨le_refl 1, by decide, Nat.coprime_one_left _⟩
  obtain ⟨hdiag, hmm, hm1, hiff, hcard⟩ :=
    build_matrix_shape [⟨1, 1, 0, 0⟩] Curve.SECP256K1 4 BitsType.LSB none L hL hsample hsample2
  refine ⟨L, hL, hdiag 0 (by norm_num), hmm, hm1, ?_, ?_, ?_⟩
  · exact (hiff 1 0).mpr (Or.inr (Or.inl ⟨rfl, by norm_num⟩))
  · by_contra h0
    have hpos := (hiff 0 1).mp h0
    simp only [List.length_singleton] at hpos
    omega
  · simpa using hcard

/-! ## Helper lemmas: the candidate extractor (C5) -/

lemma test_result_cons (derive : ℕ → Curve → ℤ × ℤ) (target : ℤ × ℤ) (curve : Curve)
    (row : List ℤ) (rest : List (List ℤ)) :
    test_result derive (row :: rest) target curve =
      match rowCandidate derive target curve row with
      | some d => d
      | none => test_result derive rest target curve := by
  simp only [test_result, rowCandidate]
  split_ifs <;> rfl

lemma rowCandidate_some {derive : ℕ → Curve → ℤ × ℤ} {target : ℤ × ℤ} {curve : Curve}
    {row : List ℤ} {d : ℕ} (h : rowCandidate derive target curve row = some d) :
    0 < d ∧ d < curve_n curve ∧ target = derive d curve := by
  have hn := curve_n_two_le curve
  rw [rowCandidate] at h
  split_ifs at h with hc h1 h2
  · obtain rfl : (rowNeg2 row % (curve_n curve : ℤ)).toNat = d := by injection h
    have hlt : rowNeg2 row % (curve_n curve : ℤ) < (curve_n curve : ℤ) :=
      Int.emod_lt_of_pos _ (by exact_mod_cast (by omega : 0 < curve_n curve))
    refine ⟨by omega, by omega, h1⟩
  · obtain rfl : curve_n curve - (rowNeg2 row % (curve_n curve : ℤ)).toNat = d := by injection h
    have hlt : rowNeg2 row % (curve_n curve : ℤ) < (curve_n curve : ℤ) :=
      Int.emod_lt_of_pos _ (by exact_mod_cast (by omega : 0 < curve_n curve))
    refine ⟨by omega, by omega, h2⟩

/-- C5: the extractor scans rows in order; a row's candidate is the
second-to-last entry mod `n`; zero candidates are skipped; for a nonzero
candidate `c` it returns `c` if `derive c` matches the target, otherwise
`n − c` if that matches; the first matching row wins; if no row matches
the result is `0`; and every nonzero return value `d` satisfies
`1 ≤ d < n` and `derive d = Q`. -/
theorem test_result_spec (derive : ℕ → Curve → ℤ × ℤ) (target : ℤ × ℤ) (curve : Curve)
    (mat : List (List ℤ)) (hrows : ∀ row ∈ mat, 2 ≤ row.length) :
    (∀ j d, j < mat.length →
      (∀ i, i < j → rowCandidate derive target curve (mat.getD i []) = none) →
      rowCandidate derive target curve (mat.getD j []) = some d →
      test_result derive mat target curve = d) ∧
    ((∀ j, j < mat.length → rowCandidate derive target curve (mat.getD j []) = none) →
      test_result derive mat target curve = 0) ∧
    (∀ d, test_result derive mat target curve = d → 0 < d →
      d < curve_n curve ∧ target = derive d curve) := by
  clear hrows
  induction mat with
  | nil =>
    refine ⟨fun j d hj => absurd hj (by simp), fun _ => rfl, fun d hd hpos => ?_⟩
    rw [test_result] at hd
    omega
  | cons row rest ih =>
    refine ⟨?_, ?_, ?_⟩
    · intro j d hj hprev hcur
      rw [test_result_cons]
      match j with
      | 0 =>
        simp only [List.getD_cons_zero] at hcur
        rw [hcur]
      | k + 1 =>
        have h0 : rowCandidate derive target curve row = none := by
          have := hprev 0 (by omega)
          simpa using this
        rw [h0]
        exact ih.1 k d (by simpa using hj)
          (fun i hi => by simpa using hprev (i + 1) (by omega))
          (by simpa using hcur)
    · intro hall
      rw [test_result_cons]
      have h0 : rowCandidate derive target curve row = none := by
        have := hall 0 (by simp)
        simpa using this
      rw [h0]
      exact ih.2.1 fun j hj => by simpa using hall (j + 1) (by simpa using hj)
    · intro d hd hpos
      rw [test_result_cons] at hd
      rcases hcand : rowCandidate derive target curve row with _ | d0
      · rw [hcand] at hd
        exact ih.2.2 d hd hpos
      · rw [hcand] at hd
        obtain rfl : d0 = d := hd
        obtain ⟨_, hlt, hder⟩ := rowCandidate_some hcand
        exact ⟨hlt, hder⟩

/-- Witness for C5: a one-row matrix whose second-to-last entry is `2`,
with a derivation oracle mapping `d` to `(d, d)` and target `(2, 2)`. -/
theorem test_result_spec_witness :
    test_result (fun d _ => ((d : ℤ), (d : ℤ))) [[5, 2, 9]] ((2 : ℤ), (2 : ℤ))
      Curve.SECP256K1 = 2 := by
  have hrows : ∀ row ∈ [[(5 : ℤ), 2, 9]], 2 ≤ row.length := by
    intro row hrow
    rw [List.mem_singleton] at hrow
    subst hrow
    norm_num
  have h := test_result_spec (fun d _ => ((d : ℤ), (d : ℤ))) ((2 : ℤ), (2 : ℤ))
    Curve.SECP256K1 [[5, 2, 9]] hrows
  exact h.1 0 2 (by norm_num) (fun i hi => absurd hi (Nat.not_lt_zero i)) (by decide)

/-! ## Helper lemmas: the recovery schedule (C6, C7, C10, C3) -/

lemma reduceEfforts_zeroTrace (effs : List (Option ℕ)) :
    reduceEfforts (zeroTrace effs) = effs := by
  induction effs with
  | nil => rfl
  | cons e rest ih => simp [zeroTrace, reduceEfforts, List.filterMap_cons] at ih ⊢; exact ih

lemma countTests_zeroTrace (effs : List (Option ℕ)) :
    countTests (zeroTrace effs) = effs.length := by
  induction effs with
  | nil => rfl
  | cons e rest ih => simp [zeroTrace, countTests, List.filter_cons] at ih ⊢; exact ih

lemma countSamples_zeroTrace (effs : List (Option ℕ)) :
    countSamples (zeroTrace effs) = 0 := by
  induction effs with
  | nil => rfl
  | cons e rest ih => simpa [zeroTrace, countSamples, List.filter_cons] using ih

lemma countBuilds_zeroTrace (effs : List (Option ℕ)) :
    countBuilds (zeroTrace effs) = 0 := by
  induction effs with
  | nil => rfl
  | cons e rest ih => simpa [zeroTrace, countBuilds, List.filter_cons] using ih

lemma reduceEfforts_append (a b : List DEvent) :
    reduceEfforts (a ++ b) = reduceEfforts a ++ reduceEfforts b := by
  simp [reduceEfforts, List.filterMap_append]

lemma countTests_append (a b : List DEvent) :
    countTests (a ++ b) = countTests a + countTests b := by
  simp [countTests, List.filter_append]

lemma latAfter_cons {Λ : Type} (reduce : Λ → Option ℕ → Λ) (lat : Λ) (e : Option ℕ)
    (effs : List (Option ℕ)) :
    latAfter reduce lat (e :: effs) = latAfter reduce (reduce lat e) effs := rfl

/-- If every extractor result along the schedule is zero, `scheduleRun`
returns `none` with the full trace. -/
lemma scheduleRun_all_zero {Λ : Type} (reduce : Λ → Option ℕ → Λ) (test : Λ → ℕ) :
    ∀ (effs : List (Option ℕ)) (lat : Λ),
      (∀ k, k < effs.length → test (latAfter reduce lat (effs.take (k + 1))) = 0) →
      scheduleRun reduce test lat effs = (none, zeroTrace effs) := by
  intro effs
  induction effs with
  | nil => intro lat _; rfl
  | cons e rest ih =>
    intro lat h
    have h0 : test (reduce lat e) = 0 := by
      have := h 0 (by simp)
      simpa [latAfter] using this
    rw [scheduleRun, if_neg (by omega)]
    have hrec := ih (reduce lat e) fun k hk => by
      have := h (k + 1) (by simpa using hk)
      simpa [List.take_succ_cons, latAfter_cons] using this
    rw [h0, hrec]
    rfl

/-- If the extractor first succeeds right after step `k` of the schedule,
`scheduleRun` returns that result, having applied exactly the first
`k + 1` reductions. -/
lemma scheduleRun_first_hit {Λ : Type} (reduce : Λ → Option ℕ → Λ) (test : Λ → ℕ) :
    ∀ (effs : List (Option ℕ)) (lat : Λ) (k : ℕ), k < effs.length →
      (∀ j, j < k → test (latAfter reduce lat (effs.take (j + 1))) = 0) →
      test (latAfter reduce lat (effs.take (k + 1))) ≠ 0 →
      scheduleRun reduce test lat effs =
        (some (test (latAfter reduce lat (effs.take (k + 1)))),
         zeroTrace (effs.take k) ++
           [DEvent.reduceStep (effs.getD k none),
            DEvent.testStep (test (latAfter reduce lat (effs.take (k + 1))))]) := by
  intro effs
  induction effs with
  | nil => intro lat k hk; simp at hk
  | cons e rest ih =>
    intro lat k hk hprev hcur
    match k with
    | 0 =>
      have hc : test (reduce lat e) ≠ 0 := by simpa [latAfter] using hcur
      rw [scheduleRun, if_pos hc]
      simp [zeroTrace, latAfter]
    | k' + 1 =>
      have h0 : test (reduce lat e) = 0 := by
        have := hprev 0 (by omega)
        simpa [latAfter] using this
      rw [scheduleRun, if_neg (by omega)]
      have hrec := ih (reduce lat e) k' (by simpa using hk)
        (fun j hj => by
          have := hprev (j + 1) (by omega)
          simpa [List.take_succ_cons, latAfter_cons] using this)
        (by simpa [List.take_succ_cons, latAfter_cons] using hcur)
      rw [h0, hrec]
      simp [zeroTrace, List.take_succ_cons, latAfter_cons]

/-- Every value the shuffle loop returns is a Python int. -/
lemma recover_attempts_vint {Λ : Type} (reduce : Λ → Option ℕ → Λ) (test : Λ → ℕ)
    (build : List Sig → Λ) (samples : ℕ → List Sig) (loop : Bool) :
    ∀ (fuel t : ℕ) (p : PyVal × List DEvent),
      recover_attempts reduce test build samples loop fuel t = some p →
      ∃ d, p.1 = PyVal.vint d := by
  intro fuel
  induction fuel with
  | zero => intro t p h; simp [recover_attempts] at h
  | succ fuel ih =>
    intro t p h
    rw [recover_attempts] at h
    rcases hout : (scheduleRun reduce test (build (samples t)) RECOVERY_SEQUENCE).1 with _ | r
    · rw [hout] at h
      by_cases hloop : loop
      · rw [if_pos hloop, Option.map_eq_some'] at h
        obtain ⟨q, hq, rfl⟩ := h
        obtain ⟨d, hd⟩ := ih (t + 1) q hq
        exact ⟨d, hd⟩
      · rw [if_neg hloop] at h
        obtain rfl : (PyVal.vint 0,
            DEvent.sample :: DEvent.buildMatrix ::
              (scheduleRun reduce test (build (samples t)) RECOVERY_SEQUENCE).2) = p := by
          injection h
        exact ⟨0, rfl⟩
    · rw [hout] at h
      obtain rfl : (PyVal.vint r,
          DEvent.sample :: DEvent.buildMatrix ::
            (scheduleRun reduce test (build (samples t)) RECOVERY_SEQUENCE).2) = p := by
        injection h
      exact ⟨r, rfl⟩

lemma countSamples_append (a b : List DEvent) :
    countSamples (a ++ b) = countSamples a + countSamples b := by
  simp [countSamples, List.filter_append]

lemma countBuilds_append (a b : List DEvent) :
    countBuilds (a ++ b) = countBuilds a + countBuilds b := by
  simp [countBuilds, List.filter_append]

lemma take_succ_getD {α : Type} (l : List α) (k : ℕ) (h : k < l.length) (d : α) :
    l.take (k + 1) = l.take k ++ [l.getD k d] := by
  induction l generalizing k with
  | nil => simp at h
  | cons a rest ih =>
    match k with
    | 0 => simp
    | k' + 1 =>
      simp only [List.take_succ_cons, List.getD_cons_succ, List.cons_append, List.cons.injEq,
        true_and]
      exact ih k' (by simpa using h)

lemma countSamples_cons_sample (l : List DEvent) :
    countSamples (DEvent.sample :: l) = countSamples l + 1 := by
  simp [countSamples, List.filter_cons]

lemma countSamples_cons_build (l : List DEvent) :
    countSamples (DEvent.buildMatrix :: l) = countSamples l := by
  simp [countSamples, List.filter_cons]

lemma countBuilds_cons_sample (l : List DEvent) :
    countBuilds (DEvent.sample :: l) = countBuilds l := by
  simp [countBuilds, List.filter_cons]

lemma countBuilds_cons_build (l : List DEvent) :
    countBuilds (DEvent.buildMatrix :: l) = countBuilds l + 1 := by
  simp [countBuilds, List.filter_cons]

/-- C6: in every recovery attempt of every run — any `loop` flag, any
iteration budget, any attempt index `t` — the driver applies the effort
schedule LLL then BKZ 15, 25, 40, 50, 60 in order, runs the extractor
after each of the six reduction steps, and returns the recovered key
immediately after the first successful extraction (exactly `k + 1`
reductions, no further steps); an attempt of a `loop = true` run whose
six steps all fail re-enters the outer loop with the next subsample
after applying the full schedule; and when `loop` is false the outer
loop body executes exactly once (one sample draw, one matrix build),
returning the int `0` after all six steps fail.  Past the precondition
guards a run is the attempt loop started at attempt 0. -/
theorem recovery_schedule_spec {Λ : Type} (reduce : Λ → Option ℕ → Λ) (test : Λ → ℕ)
    (build : List Sig → Λ) (samples : ℕ → List Sig) (signatures_data : List Sig)
    (curve : Curve) (num_bits : ℕ)
    (h4 : ¬ num_bits < MINIMUM_BITS)
    (hpool : ¬ signatures_data.length < minimum_sigs_required num_bits curve) :
    (∀ (loop : Bool) (fuel : ℕ),
      recover_private_key reduce test build samples signatures_data curve num_bits loop fuel =
        recover_attempts reduce test build samples loop fuel 0) ∧
    (∀ (loop : Bool) (fuel t k : ℕ), k < 6 →
      (∀ j, j < k → resAt reduce test (build (samples t)) j = 0) →
      resAt reduce test (build (samples t)) k ≠ 0 →
      ∃ evs,
        recover_attempts reduce test build samples loop (fuel + 1) t =
          some (PyVal.vint (resAt reduce test (build (samples t)) k), evs) ∧
        reduceEfforts evs = RECOVERY_SEQUENCE.take (k + 1) ∧
        countTests evs = k + 1 ∧ countSamples evs = 1 ∧ countBuilds evs = 1) ∧
    (∀ (fuel t : ℕ),
      (∀ k, k < 6 → resAt reduce test (build (samples t)) k = 0) →
      recover_attempts reduce test build samples true (fuel + 1) t =
        (recover_attempts reduce test build samples true fuel (t + 1)).map
          (fun p => (p.1,
            (DEvent.sample :: DEvent.buildMatrix :: zeroTrace RECOVERY_SEQUENCE) ++ p.2))) ∧
    (∀ k, k < 6 →
      (∀ j, j < k → resAt reduce test (build (samples 0)) j = 0) →
      resAt reduce test (build (samples 0)) k ≠ 0 →
      ∃ evs,
        recover_private_key reduce test build samples signatures_data curve num_bits false 1 =
          some (PyVal.vint (resAt reduce test (build (samples 0)) k), evs) ∧
        reduceEfforts evs = RECOVERY_SEQUENCE.take (k + 1) ∧
        countTests evs = k + 1 ∧ countSamples evs = 1 ∧ countBuilds evs = 1) ∧
    ((∀ k, k < 6 → resAt reduce test (build (samples 0)) k = 0) →
      ∃ evs,
        recover_private_key reduce test build samples signatures_data curve num_bits false 1 =
          some (PyVal.vint 0, evs) ∧
        reduceEfforts evs = RECOVERY_SEQUENCE ∧ countTests evs = 6 ∧
        countSamples evs = 1 ∧ countBuilds evs = 1) := by
  have hlen : RECOVERY_SEQUENCE.length = 6 := rfl
  refine ⟨?_, ?_, ?_, ?_, ?_⟩
  · intro loop fuel
    rw [recover_private_key, if_neg h4, if_neg hpool]
  · intro loop fuel t k hk hprev hcur
    have hsched := scheduleRun_first_hit reduce test RECOVERY_SEQUENCE (build (samples t)) k
      (by omega) hprev hcur
    refine ⟨DEvent.sample :: DEvent.buildMatrix ::
      (zeroTrace (RECOVERY_SEQUENCE.take k) ++
        [DEvent.reduceStep (RECOVERY_SEQUENCE.getD k none),
         DEvent.testStep (resAt reduce test (build (samples t)) k)]), ?_, ?_, ?_, ?_, ?_⟩
    · rw [recover_attempts, hsched]
      rfl
    · show reduceEfforts (zeroTrace (RECOVERY_SEQUENCE.take k) ++ _) = _
      rw [reduceEfforts_append, reduceEfforts_zeroTrace]
      have he : reduceEfforts [DEvent.reduceStep (RECOVERY_SEQUENCE.getD k none),
          DEvent.testStep (resAt reduce test (build (samples t)) k)] =
          [RECOVERY_SEQUENCE.getD k none] := rfl
      rw [he, ← take_succ_getD RECOVERY_SEQUENCE k (by omega) none]
    · show countTests (zeroTrace (RECOVERY_SEQUENCE.take k) ++ _) = _
      rw [countTests_append, countTests_zeroTrace, List.length_take]
      have he : countTests [DEvent.reduceStep (RECOVERY_SEQUENCE.getD k none),
          DEvent.testStep (resAt reduce test (build (samples t)) k)] = 1 := rfl
      rw [he]
      omega
    · rw [countSamples_cons_sample, countSamples_cons_build, countSamples_append,
        countSamples_zeroTrace]
      rfl
    · rw [countBuilds_cons_sample, countBuilds_cons_build, countBuilds_append,
        countBuilds_zeroTrace]
      rfl
  · intro fuel t hall
    have hsched := scheduleRun_all_zero reduce test RECOVERY_SEQUENCE (build (samples t))
      fun k hk => hall k (by omega)
    rw [recover_attempts, hsched]
    rfl
  · intro k hk hprev hcur
    have hsched := scheduleRun_first_hit reduce test RECOVERY_SEQUENCE (build (samples 0)) k
      (by omega) hprev hcur
    refine ⟨DEvent.sample :: DEvent.buildMatrix ::
      (zeroTrace (RECOVERY_SEQUENCE.take k) ++
        [DEvent.reduceStep (RECOVERY_SEQUENCE.getD k none),
         DEvent.testStep (resAt reduce test (build (samples 0)) k)]), ?_, ?_, ?_, ?_, ?_⟩
    · rw [recover_private_key, if_neg h4, if_neg hpool, recover_attempts, hsched]
      rfl
    · show reduceEfforts (zeroTrace (RECOVERY_SEQUENCE.take k) ++ _) = _
      rw [reduceEfforts_append, reduceEfforts_zeroTrace]
      have he : reduceEfforts [DEvent.reduceStep (RECOVERY_SEQUENCE.getD k none),
          DEvent.testStep (resAt reduce test (build (samples 0)) k)] =
          [RECOVERY_SEQUENCE.getD k none] := rfl
      rw [he, ← take_succ_getD RECOVERY_SEQUENCE k (by omega) none]
    · show countTests (zeroTrace (RECOVERY_SEQUENCE.take k) ++ _) = _
      rw [countTests_append, countTests_zeroTrace, List.length_take]
      have he : countTests [DEvent.reduceStep (RECOVERY_SEQUENCE.getD k none),
          DEvent.testStep (resAt reduce test (build (samples 0)) k)] = 1 := rfl
      rw [he]
      omega
    · rw [countSamples_cons_sample, countSamples_cons_build, countSamples_append,
        countSamples_zeroTrace]
      rfl
    · rw [countBuilds_cons_sample, countBuilds_cons_build, countBuilds_append,
        countBuilds_zeroTrace]
      rfl
  · intro hall
    have hsched := scheduleRun_all_zero reduce test RECOVERY_SEQUENCE (build (samples 0))
      fun k hk => hall k (by omega)
    refine ⟨DEvent.sample :: DEvent.buildMatrix :: zeroTrace RECOVERY_SEQUENCE,
      ?_, ?_, ?_, ?_, ?_⟩
    · rw [recover_private_key, if_neg h4, if_neg hpool, recover_attempts, hsched]
      rfl
    · show reduceEfforts (zeroTrace RECOVERY_SEQUENCE) = RECOVERY_SEQUENCE
      exact reduceEfforts_zeroTrace _
    · show countTests (zeroTrace RECOVERY_SEQUENCE) = 6
      rw [countTests_zeroTrace, hlen]
    · rw [countSamples_cons_sample, countSamples_cons_build, countSamples_zeroTrace]
    · rw [countBuilds_cons_sample, countBuilds_cons_build, countBuilds_zeroTrace]

/-- Witness for C6: a counting reduction oracle on `ℕ` whose first
attempt (lattice 0) fails all six steps and re-enters the loop, and
whose second attempt (`t = 1`, lattice 10) first succeeds after the
third reduction step (`k = 2`) with value 9, inside a `loop = true`
run; plus the run-to-attempt-loop identity past the guards. -/
theorem recovery_schedule_spec_witness :
    resAt (fun (l : ℕ) _ => l + 1) (fun l => if l = 13 then 9 else 0) 10 2 = 9 ∧
    (∃ evs,
      recover_attempts (fun (l : ℕ) _ => l + 1) (fun l => if l = 13 then 9 else 0)
          (fun sgs => 10 * sgs.length) (fun t => List.replicate t ⟨1, 1, 0, 0⟩) true 1 1 =
        some (PyVal.vint
          (resAt (fun (l : ℕ) _ => l + 1) (fun l => if l = 13 then 9 else 0) 10 2), evs) ∧
      reduceEfforts evs = RECOVERY_SEQUENCE.take 3 ∧ countTests evs = 3 ∧
      countSamples evs = 1 ∧ countBuilds evs = 1) ∧
    recover_attempts (fun (l : ℕ) _ => l + 1) (fun l => if l = 13 then 9 else 0)
        (fun sgs => 10 * sgs.length) (fun t => List.replicate t ⟨1, 1, 0, 0⟩) true 2 0 =
      (recover_attempts (fun (l : ℕ) _ => l + 1) (fun l => if l = 13 then 9 else 0)
          (fun sgs => 10 * sgs.length) (fun t => List.replicate t ⟨1, 1, 0, 0⟩) true 1 1).map
        (fun p => (p.1,
          (DEvent.sample :: DEvent.buildMatrix :: zeroTrace RECOVERY_SEQUENCE) ++ p.2)) ∧
    recover_private_key (fun (l : ℕ) _ => l + 1) (fun l => if l = 13 then 9 else 0)
        (fun sgs => 10 * sgs.length) (fun t => List.replicate t ⟨1, 1, 0, 0⟩)
        [⟨1, 1, 0, 0⟩] Curve.SECP224R1 224 true 2 =
      recover_attempts (fun (l : ℕ) _ => l + 1) (fun l => if l = 13 then 9 else 0)
        (fun sgs => 10 * sgs.length) (fun t => List.replicate t ⟨1, 1, 0, 0⟩) true 2 0 := by
  have h := recovery_schedule_spec (fun (l : ℕ) _ => l + 1) (fun l => if l = 13 then 9 else 0)
    (fun sgs => 10 * sgs.length) (fun t => List.replicate t ⟨1, 1, 0, 0⟩)
    [⟨1, 1, 0, 0⟩] Curve.SECP224R1 224 (by decide) (by decide)
  refine ⟨by decide, ?_, ?_, ?_⟩
  · exact h.2.1 true 0 1 2 (by norm_num) (fun j hj => by interval_cases j <;> decide)
      (by decide)
  · exact h.2.2.1 1 0 (fun k hk => by interval_cases k <;> decide)
  · exact h.1 true 2

/-- C7: with `ℓ < 4` the driver fails with the insufficient-leakage
message, and with `ℓ ≥ 4` but too few signatures it fails with the
not-enough-signatures message; in both cases the returned trace contains
no sample draw, no matrix build and no reduction step, so both checks
happen before any subsampling, lattice construction or reduction. -/
theorem precondition_guards {Λ : Type} (reduce : Λ → Option ℕ → Λ) (test : Λ → ℕ)
    (build : List Sig → Λ) (samples : ℕ → List Sig) (signatures_data : List Sig)
    (curve : Curve) (num_bits : ℕ) (loop : Bool) (fuel : ℕ) :
    (num_bits < MINIMUM_BITS →
      recover_private_key reduce test build samples signatures_data curve num_bits loop fuel =
        some (PyVal.vbool false, [DEvent.printInsufficientLeakage])) ∧
    (¬ num_bits < MINIMUM_BITS →
      signatures_data.length < minimum_sigs_required num_bits curve →
      recover_private_key reduce test build samples signatures_data curve num_bits loop fuel =
        some (PyVal.vbool false, [DEvent.printNotEnoughSignatures])) ∧
    (∀ v evs,
      recover_private_key reduce test build samples signatures_data curve num_bits loop fuel =
        some (v, evs) →
      (num_bits < MINIMUM_BITS ∨
        signatures_data.length < minimum_sigs_required num_bits curve) →
      countSamples evs = 0 ∧ countBuilds evs = 0 ∧ reduceEfforts evs = []) := by
  refine ⟨?_, ?_, ?_⟩
  · intro h
    rw [recover_private_key, if_pos h]
  · intro h4 hpool
    rw [recover_private_key, if_neg h4, if_pos hpool]
  · intro v evs h hbad
    by_cases h4 : num_bits < MINIMUM_BITS
    · rw [recover_private_key, if_pos h4] at h
      have h1 : (PyVal.vbool false, [DEvent.printInsufficientLeakage]) = (v, evs) := by
        injection h
      rw [Prod.mk.injEq] at h1
      obtain ⟨rfl, rfl⟩ := h1
      exact ⟨rfl, rfl, rfl⟩
    · have hpool : signatures_data.length < minimum_sigs_required num_bits curve := by
        rcases hbad with hbad | hbad
        · exact absurd hbad h4
        · exact hbad
      rw [recover_private_key, if_neg h4, if_pos hpool] at h
      have h1 : (PyVal.vbool false, [DEvent.printNotEnoughSignatures]) = (v, evs) := by
        injection h
      rw [Prod.mk.injEq] at h1
      obtain ⟨rfl, rfl⟩ := h1
      exact ⟨rfl, rfl, rfl⟩

/-- Witness for C7: `ℓ = 3 < 4` fails with the leakage message; `ℓ = 6`
with an empty signature pool fails with the signature-count message. -/
theorem precondition_guards_witness :
    recover_private_key (fun (l : ℕ) _ => l) (fun _ => 0) (fun _ => 0) (fun _ => [])
        [] Curve.SECP256K1 3 false 1 =
      some (PyVal.vbool false, [DEvent.printInsufficientLeakage]) ∧
    recover_private_key (fun (l : ℕ) _ => l) (fun _ => 0) (fun _ => 0) (fun _ => [])
        [] Curve.SECP256K1 6 false 1 =
      some (PyVal.vbool false, [DEvent.printNotEnoughSignatures]) := by
  constructor
  · exact (precondition_guards (fun (l : ℕ) _ => l) (fun _ => 0) (fun _ => 0) (fun _ => [])
      [] Curve.SECP256K1 3 false 1).1 (by decide)
  · exact (precondition_guards (fun (l : ℕ) _ => l) (fun _ => 0) (fun _ => 0) (fun _ => [])
      [] Curve.SECP256K1 6 false 1).2.1 (by decide) (by decide)

/-- C10: `recover_private_key` signals every failure through a falsy
return value: the Python bool `False` for both precondition failures, the
int `0` when `loop` is false and the schedule is exhausted, while any
value returned past the precondition checks is an int, any truthy return
is a strictly positive int, and `False` and `0` have the same
truthiness, so the caller cannot tell a precondition failure from an
exhausted search by truthiness of the return value. -/
theorem recover_return_values {Λ : Type} (reduce : Λ → Option ℕ → Λ) (test : Λ → ℕ)
    (build : List Sig → Λ) (samples : ℕ → List Sig) (signatures_data : List Sig)
    (curve : Curve) (num_bits : ℕ) :
    (∀ loop fuel, num_bits < MINIMUM_BITS →
      ∃ evs, recover_private_key reduce test build samples signatures_data curve num_bits
        loop fuel = some (PyVal.vbool false, evs)) ∧
    (∀ loop fuel, ¬ num_bits < MINIMUM_BITS →
      signatures_data.length < minimum_sigs_required num_bits curve →
      ∃ evs, recover_private_key reduce test build samples signatures_data curve num_bits
        loop fuel = some (PyVal.vbool false, evs)) ∧
    (¬ num_bits < MINIMUM_BITS →
      ¬ signatures_data.length < minimum_sigs_required num_bits curve →
      (∀ k, k < 6 → resAt reduce test (build (samples 0)) k = 0) →
      ∃ evs, recover_private_key reduce test build samples signatures_data curve num_bits
        false 1 = some (PyVal.vint 0, evs)) ∧
    (∀ loop fuel v evs,
      recover_private_key reduce test build samples signatures_data curve num_bits loop fuel =
        some (v, evs) →
      ¬ num_bits < MINIMUM_BITS →
      ¬ signatures_data.length < minimum_sigs_required num_bits curve →
      ∃ d, v = PyVal.vint d) ∧
    (∀ loop fuel v evs,
      recover_private_key reduce test build samples signatures_data curve num_bits loop fuel =
        some (v, evs) →
      truthy v = true → ∃ d, v = PyVal.vint d ∧ 0 < d) ∧
    truthy (PyVal.vbool false) = truthy (PyVal.vint 0) := by
  refine ⟨?_, ?_, ?_, ?_, ?_, rfl⟩
  · intro loop fuel h
    exact ⟨[DEvent.printInsufficientLeakage], by rw [recover_private_key, if_pos h]⟩
  · intro loop fuel h4 hpool
    exact ⟨[DEvent.printNotEnoughSignatures], by rw [recover_private_key, if_neg h4, if_pos hpool]⟩
  · intro h4 hpool hall
    have hsched := scheduleRun_all_zero reduce test RECOVERY_SEQUENCE (build (samples 0))
      fun k hk => hall k (by
        have : RECOVERY_SEQUENCE.length = 6 := rfl
        omega)
    refine ⟨DEvent.sample :: DEvent.buildMatrix :: zeroTrace RECOVERY_SEQUENCE, ?_⟩
    rw [recover_private_key, if_neg h4, if_neg hpool, recover_attempts, hsched]
    rfl
  · intro loop fuel v evs h h4 hpool
    rw [recover_private_key, if_neg h4, if_neg hpool] at h
    obtain ⟨d, hd⟩ := recover_attempts_vint reduce test build samples loop fuel 0 (v, evs) h
    exact ⟨d, hd⟩
  · intro loop fuel v evs h htruthy
    by_cases h4 : num_bits < MINIMUM_BITS
    · rw [recover_private_key, if_pos h4] at h
      have h1 : (PyVal.vbool false, [DEvent.printInsufficientLeakage]) = (v, evs) := by
        injection h
      rw [Prod.mk.injEq] at h1
      obtain ⟨rfl, rfl⟩ := h1
      simp [truthy] at htruthy
    by_cases hpool : signatures_data.length < minimum_sigs_required num_bits curve
    · rw [recover_private_key, if_neg h4, if_pos hpool] at h
      have h1 : (PyVal.vbool false, [DEvent.printNotEnoughSignatures]) = (v, evs) := by
        injection h
      rw [Prod.mk.injEq] at h1
      obtain ⟨rfl, rfl⟩ := h1
      simp [truthy] at htruthy
    rw [recover_private_key, if_neg h4, if_neg hpool] at h
    obtain ⟨d, hd⟩ := recover_attempts_vint reduce test build samples loop fuel 0 (v, evs) h
    have hd2 : v = PyVal.vint d := hd
    refine ⟨d, hd2, ?_⟩
    rw [hd2] at htruthy
    simp [truthy] at htruthy
    omega

/-- Witness for C10: the precondition branches, the exhausted-schedule
branch and the truthiness identity at concrete inputs. -/
theorem recover_return_values_witness :
    (∃ evs, recover_private_key (fun (l : ℕ) _ => l) (fun _ => 0) (fun _ => 0) (fun _ => [])
      [] Curve.SECP256K1 3 false 1 = some (PyVal.vbool false, evs)) ∧
    (∃ evs, recover_private_key (fun (l : ℕ) _ => l) (fun _ => 0) (fun _ => 0) (fun _ => [])
      [] Curve.SECP256K1 6 true 5 = some (PyVal.vbool false, evs)) ∧
    (∃ evs, recover_private_key (fun (l : ℕ) _ => l) (fun _ => 0) (fun _ => 0) (fun _ => [])
      [⟨1, 1, 0, 0⟩] Curve.SECP224R1 224 false 1 = some (PyVal.vint 0, evs)) ∧
    truthy (PyVal.vbool false) = truthy (PyVal.vint 0) := by
  have h1 := recover_return_values (fun (l : ℕ) _ => l) (fun _ => 0) (fun _ => 0) (fun _ => [])
    [] Curve.SECP256K1 3
  have h2 := recover_return_values (fun (l : ℕ) _ => l) (fun _ => 0) (fun _ => 0) (fun _ => [])
    [] Curve.SECP256K1 6
  have h3 := recover_return_values (fun (l : ℕ) _ => l) (fun _ => 0) (fun _ => 0) (fun _ => [])
    [⟨1, 1, 0, 0⟩] Curve.SECP224R1 224
  exact ⟨h1.1 false 1 (by decide), h2.2.1 true 5 (by decide) (by decide),
    h3.2.2.1 (by decide) (by decide) (fun k hk => by interval_cases k <;> decide), rfl⟩

/-- C3 (amended): `minimum_sigs_required(ℓ, curve)` is the truncation
(floor) of `1.03 · 4 · B / (3ℓ)`, characterized by
`300ℓ·q ≤ 412·B < 300ℓ·(q+1)`, and past the leakage guard the driver
fails with the not-enough-signatures message exactly when the pool is
smaller than this value. -/
theorem minimum_sigs_spec :
    (∀ (curve : Curve) (num_bits : ℕ), 4 ≤ num_bits →
      300 * num_bits * minimum_sigs_required num_bits curve ≤ 412 * curve_size curve ∧
      412 * curve_size curve <
        300 * num_bits * (minimum_sigs_required num_bits curve + 1)) ∧
    (∀ (Λ : Type) (reduce : Λ → Option ℕ → Λ) (test : Λ → ℕ) (build : List Sig → Λ)
      (samples : ℕ → List Sig) (signatures_data : List Sig) (curve : Curve)
      (num_bits : ℕ) (loop : Bool) (fuel : ℕ), ¬ num_bits < MINIMUM_BITS →
      (recover_private_key reduce test build samples signatures_data curve num_bits loop fuel =
          some (PyVal.vbool false, [DEvent.printNotEnoughSignatures]) ↔
        signatures_data.length < minimum_sigs_required num_bits curve)) := by
  constructor
  · intro curve num_bits hbits
    have hM : 0 < 300 * num_bits := by omega
    have hdm := Nat.div_add_mod (412 * curve_size curve) (300 * num_bits)
    have hmod := Nat.mod_lt (412 * curve_size curve) hM
    constructor
    · rw [minimum_sigs_required]
      calc 300 * num_bits * (412 * curve_size curve / (300 * num_bits)) ≤
          300 * num_bits * (412 * curve_size curve / (300 * num_bits)) +
            412 * curve_size curve % (300 * num_bits) := Nat.le_add_right _ _
        _ = 412 * curve_size curve := hdm
    · rw [minimum_sigs_required]
      calc 412 * curve_size curve =
          300 * num_bits * (412 * curve_size curve / (300 * num_bits)) +
            412 * curve_size curve % (300 * num_bits) := hdm.symm
        _ < 300 * num_bits * (412 * curve_size curve / (300 * num_bits)) + 300 * num_bits :=
          Nat.add_lt_add_left hmod _
        _ = 300 * num_bits * (412 * curve_size curve / (300 * num_bits) + 1) := by ring
  · intro Λ reduce test build samples signatures_data curve num_bits loop fuel h4
    constructor
    · intro h
      by_contra hpool
      rw [recover_private_key, if_neg h4, if_neg hpool] at h
      obtain ⟨d, hd⟩ := recover_attempts_vint reduce test build samples loop fuel 0 _ h
      simp at hd
    · intro hpool
      rw [recover_private_key, if_neg h4, if_pos hpool]

/-- Witness for C3: the floor bounds at `(SECP256K1, ℓ = 6)` (value 58)
and the driver iff at a concrete empty pool. -/
theorem minimum_sigs_spec_witness :
    (300 * 6 * minimum_sigs_required 6 Curve.SECP256K1 ≤ 412 * curve_size Curve.SECP256K1 ∧
      412 * curve_size Curve.SECP256K1 <
        300 * 6 * (minimum_sigs_required 6 Curve.SECP256K1 + 1)) ∧
    (recover_private_key (fun (l : ℕ) _ => l) (fun _ => 0) (fun _ => 0) (fun _ => [])
        [] Curve.SECP256K1 6 false 1 =
        some (PyVal.vbool false, [DEvent.printNotEnoughSignatures]) ↔
      ([] : List Sig).length < minimum_sigs_required 6 Curve.SECP256K1) := by
  exact ⟨minimum_sigs_spec.1 Curve.SECP256K1 6 (by norm_num),
    minimum_sigs_spec.2 ℕ (fun l _ => l) (fun _ => 0) (fun _ => 0) (fun _ => [])
      [] Curve.SECP256K1 6 false 1 (by decide)⟩

/-- C3 counterexample: the claim says `minimum_sigs_required` equals the
ceiling `⌈1.03·4·B/(3ℓ)⌉`; at SECP256K1 with `ℓ = 6` the code truncates
to 58 while the ceiling is 59. -/
theorem minimum_sigs_ceiling_counterexample :
    minimum_sigs_required 6 Curve.SECP256K1 = 58 ∧
    (412 * curve_size Curve.SECP256K1 + (300 * 6 - 1)) / (300 * 6) = 59 ∧
    minimum_sigs_required 6 Curve.SECP256K1 ≠
      (412 * curve_size Curve.SECP256K1 + (300 * 6 - 1)) / (300 * 6) := by
  exact ⟨by decide, by decide, by decide⟩

/-- C8 (amended): if the top-level `message` key is present with a
non-empty value, the SHA-256 hash of the message bytes is used as the
global hash for every sample and the per-sample hash fields are ignored
(`hash_for` of a `some` ignores the sample); if `message` is absent, or
present but the empty list (falsy under Python's `if message:`), each
sample's own hash field is used. -/
theorem message_hash_selection (sha2_int : List ℕ → ℕ) (msg : List ℕ) (sg : Sig) :
    (msg ≠ [] →
      message_hash_int sha2_int (some msg) = some (sha2_int msg) ∧
      hash_for (message_hash_int sha2_int (some msg)) sg = sha2_int msg) ∧
    (message_hash_int sha2_int none = none ∧ hash_for none sg = sg.hash) ∧
    (message_hash_int sha2_int (some []) = none ∧
      hash_for (message_hash_int sha2_int (some [])) sg = sg.hash) := by
  refine ⟨?_, ⟨rfl, rfl⟩, ⟨rfl, rfl⟩⟩
  intro hne
  rw [message_hash_int, if_neg hne]
  exact ⟨rfl, rfl⟩

/-- Witness for C8 (amended) at the non-empty message `[1, 2]` and a
hash oracle mapping it to `42`. -/
theorem message_hash_selection_witness :
    ([1, 2] : List ℕ) ≠ [] ∧
    message_hash_int (fun l => l.length + 40) (some [1, 2]) = some 42 ∧
    hash_for (message_hash_int (fun l => l.length + 40) (some [1, 2])) ⟨1, 1, 1, 7⟩ = 42 := by
  have h := (message_hash_selection (fun l => l.length + 40) [1, 2] ⟨1, 1, 1, 7⟩).1 (by decide)
  exact ⟨by decide, h.1, h.2⟩

/-- C8 counterexample: with `message` present but equal to the empty
list, Python's `if message:` is falsy, so the global SHA-256 hash is NOT
installed — the per-sample hash is used instead — contradicting the
claim's "this holds for every present message value, including an empty
byte list". -/
theorem message_hash_empty_counterexample :
    message_hash_int (fun _ => 7) (some []) = none ∧
    message_hash_int (fun _ => 7) (some []) ≠ some 7 ∧
    hash_for (message_hash_int (fun _ => 7) (some [])) ⟨1, 1, 1, 42⟩ = 42 := by
  exact ⟨rfl, by decide, rfl⟩

/-- C9: for every prime modulus `m` and every `a ∈ [1, m−1]`,
`inverse_mod a m` terminates and returns the unique `x ∈ [0, m)` with
`(a·x) mod m = 1`; on non-coprime input (for prime `m`: `a ≡ 0 mod m`,
where the Python loop divides by zero) the function fails rather than
returning a value. -/
theorem inverse_mod_spec (m : ℕ) (hm : Nat.Prime m) :
    (∀ a, 1 ≤ a → a < m →
      ∃ x, inverse_mod a m = some x ∧ x < m ∧ (a * x) % m = 1 ∧
        ∀ y, y < m → (a * y) % m = 1 → y = x) ∧
    (∀ a, a % m = 0 → inverse_mod a m = none) := by
  have hm2 := hm.two_le
  constructor
  · intro a h1 h2
    have hmod : a % m = a := Nat.mod_eq_of_lt h2
    have hnd : ¬ m ∣ a := fun hdvd => absurd (Nat.le_of_dvd (by omega) hdvd) (by omega)
    have hco : Nat.gcd (a % m) m = 1 := by
      rw [hmod]
      exact (Nat.Coprime.symm ((Nat.Prime.coprime_iff_not_dvd hm).mpr hnd))
    obtain ⟨x, hx⟩ := inverse_mod_total (by omega) (by omega) hco
    obtain ⟨hxlt, hxinv⟩ := inverse_mod_correct hx
    have h1m : 1 % m = 1 := Nat.mod_eq_of_lt (by omega)
    rw [h1m] at hxinv
    refine ⟨x, hx, hxlt, hxinv, ?_⟩
    intro y hy hinvy
    have hyx := mod_inv_unique (n := m) (a := a) (b := y) (c := x)
      (by rw [hinvy, h1m]) (by rw [hxinv, h1m])
    rwa [Nat.mod_eq_of_lt hy, Nat.mod_eq_of_lt hxlt] at hyx
  · intro a ha
    exact inverse_mod_none_of_mod_zero ha

/-- Witness for C9 at the prime modulus 7: `inverse_mod 3 7` succeeds
with the unique inverse, and `inverse_mod 7 7` (the `a ≡ 0 mod m` case)
fails. -/
theorem inverse_mod_spec_witness :
    Nat.Prime 7 ∧
    (∃ x, inverse_mod 3 7 = some x ∧ x < 7 ∧ (3 * x) % 7 = 1 ∧
      ∀ y, y < 7 → (3 * y) % 7 = 1 → y = x) ∧
    inverse_mod 7 7 = none := by
  have hp : Nat.Prime 7 := by norm_num
  exact ⟨hp, (inverse_mod_spec 7 hp).1 3 (by norm_num) (by norm_num),
    (inverse_mod_spec 7 hp).2 7 (by norm_num)⟩
